import Mathlib

/-!
Verification development for a distance-vector routing daemon (`dv.py` and
companions).  The Python source is shallowly embedded: dictionaries become
association lists over `ℕ` keys (preserving insertion order and in-place
update semantics), Python floats carrying costs become a rational-or-infinity
sum type (the `int()` applied to a cost at emission becomes integer truncation
toward zero), byte strings become `List ℕ`, and fallible operations (struct
packing/unpacking, address parsing) return `Option`.
-/

set_option maxHeartbeats 1000000
set_option linter.unusedVariables false

namespace DV

/-- Path costs as the server manipulates them: finite `float` values (costs
enter through `float(...)` in the command handlers and the topology parser, so
fractional values such as `2.5` are admissible) plus the `float('inf')`
sentinel.  Finite values are embedded as rationals. -/
inductive Cost where
  | fin : ℚ → Cost
  | inf : Cost
deriving DecidableEq, Repr

/-- Infinity-absorbing addition, as Python float addition behaves on `inf`. -/
def Cost.add : Cost → Cost → Cost
  | .fin a, .fin b => .fin (a + b)
  | _, _ => .inf

/-- Strict order, as Python `<` behaves on floats with `inf`. -/
def Cost.ltb : Cost → Cost → Bool
  | .fin a, .fin b => decide (a < b)
  | .fin _, .inf => true
  | .inf, _ => false

/-- Whether a cost carries an integer value (then the `int()` applied to it by
`create_update_message` is the identity).  `inf` never reaches that `int()`,
so it counts as integral. -/
def Cost.isInt : Cost → Bool
  | .fin c => c.den == 1
  | .inf => true

/-- Lookup in a Python dict modelled as an association list (`d[k]`,
returning `none` when the key is absent). -/
def dictGet? {α : Type} (l : List (ℕ × α)) (k : ℕ) : Option α :=
  (l.find? (fun p => p.1 == k)).map Prod.snd

/-- Python dict assignment `d[k] = v`: replaces in place when the key is
present (keeping its position), appends otherwise. -/
def dictAssign {α : Type} (l : List (ℕ × α)) (k : ℕ) (v : α) : List (ℕ × α) :=
  match l.find? (fun p => p.1 == k) with
  | some _ => l.map (fun p => if p.1 == k then (k, v) else p)
  | none => l ++ [(k, v)]

/-- A dotted-quad IP address (`socket.inet_aton` input), one field per octet. -/
structure IPv4 where
  a : ℕ
  b : ℕ
  c : ℕ
  d : ℕ
deriving DecidableEq, Repr

/-- A UDP endpoint. -/
structure Addr where
  ip : IPv4
  port : ℕ
deriving DecidableEq, Repr

/-- The class `router.RoutingEntry`. -/
structure RoutingEntry where
  destination_id : ℕ
  next_hop_id : Option ℕ
  cost : Cost
  last_update_time : ℚ
deriving DecidableEq, Repr

/-- One value of `DVServer.neighbors`: `{'ip': ip, 'port': port, 'cost': cost}`. -/
structure NeighborInfo where
  ip : IPv4
  port : ℕ
  cost : Cost
deriving DecidableEq, Repr

/-- The mutable state of a `DVServer` (socket and threading fields omitted;
timestamps are rationals supplied as explicit `now` arguments). -/
structure ServerState where
  server_id : ℕ
  server_ip : IPv4
  server_port : ℕ
  routing_table : List (ℕ × RoutingEntry)
  neighbors : List (ℕ × NeighborInfo)
  neighbor_last_update : List (ℕ × ℚ)
  all_servers : List (ℕ × Addr)
  packets_received : ℕ
  update_interval : ℚ
deriving Repr

/-! ### Wire codec (`parse_update_message` / `create_update_message`) -/

/-- Python `struct.pack('!I', v)`: four big-endian bytes. -/
def be32 (v : ℕ) : List ℕ :=
  [v / 2 ^ 24 % 256, v / 2 ^ 16 % 256, v / 2 ^ 8 % 256, v % 256]

/-- Read a big-endian 32-bit field at a byte offset (out-of-range reads
default to 0; every use is guarded by an explicit length check, matching
`struct.unpack` raising on a short slice). -/
def readBE32 (data : List ℕ) (off : ℕ) : ℕ :=
  data.getD off 0 * 2 ^ 24 + data.getD (off + 1) 0 * 2 ^ 16 +
    data.getD (off + 2) 0 * 2 ^ 8 + data.getD (off + 3) 0

/-- Python `struct.pack('!I', v)` for a value already known non-negative; fails
(raises `struct.error`) when the value does not fit an unsigned 32-bit field. -/
def packU32 (v : ℕ) : Option (List ℕ) :=
  if v < 2 ^ 32 then some (be32 v) else none

/-- Python `struct.pack('!I', v)` on an int: fails on negative values and on
values not fitting 32 bits. -/
def packI32 (v : ℤ) : Option (List ℕ) :=
  if 0 ≤ v ∧ v < 2 ^ 32 then some (be32 v.toNat) else none

/-- Python `socket.inet_aton`: succeeds exactly on a valid dotted quad. -/
def ipBytes (ip : IPv4) : Option (List ℕ) :=
  if ip.a < 256 ∧ ip.b < 256 ∧ ip.c < 256 ∧ ip.d < 256 then
    some [ip.a, ip.b, ip.c, ip.d]
  else none

/-- Decoding of a received cost field (`dv.py` line 192): any wire value at or
above the constant `INFINITY = 999999` becomes `float('inf')`. -/
def wireCost (w : ℕ) : Cost :=
  if 999999 ≤ w then Cost.inf else Cost.fin w

/-- Encoding of a cost for emission (`dv.py` lines 236-242): `float('inf')`
becomes the constant `INFINITY = 999999`, finite costs pass through `int`,
which truncates the float toward zero. -/
def costWord : Cost → ℤ
  | .inf => 999999
  | .fin c => c.num.tdiv c.den

/-- The sender-resolution loop of `parse_update_message`: first server in
`all_servers` whose address matches the header's IP and port. -/
def findServer (servers : List (ℕ × Addr)) (ip : IPv4) (port : ℕ) : Option ℕ :=
  (servers.find? (fun p => decide (p.2.ip = ip ∧ p.2.port = port))).map Prod.fst

/-- The entry loop of `parse_update_message`: `n` records of 20 bytes each
(`dest_ip` 4, `dest_port` 4, padding 4, `dest_id` 4, `cost` 4), starting at
`off`.  A short buffer makes `struct.unpack` raise, which the surrounding
`try` turns into a failed parse. -/
def parseEntries (data : List ℕ) : ℕ → ℕ → Option (List (ℕ × Cost))
  | 0, _ => some []
  | n + 1, off =>
    if data.length < off + 20 then none
    else
      (parseEntries data n (off + 20)).map
        (fun rest => (readBE32 data (off + 12), wireCost (readBE32 data (off + 16))) :: rest)

/-- Accumulation of parsed records into the Python dict `entries`
(`entries[dest_id] = cost`, later duplicates overwriting earlier ones). -/
def dictOf (l : List (ℕ × Cost)) : List (ℕ × Cost) :=
  l.foldl (fun acc p => dictAssign acc p.1 p.2) []

/-- The method `DVServer.parse_update_message`.  The `sender_addr` argument is accepted
but, as in the source, never consulted: the sender is resolved from the
header's IP and port fields. -/
def parse_update_message (st : ServerState) (data : List ℕ) (sender_addr : Addr) :
    Option (ℕ × List (ℕ × Cost)) :=
  if data.length < 12 then none
  else
    let num_fields := readBE32 data 0
    let sender_port := readBE32 data 4
    let sender_ip : IPv4 := ⟨data.getD 8 0, data.getD 9 0, data.getD 10 0, data.getD 11 0⟩
    match findServer st.all_servers sender_ip sender_port with
    | none => none
    | some sender_id =>
      (parseEntries data num_fields 12).map (fun es => (sender_id, dictOf es))

/-- The destination-address lookup of `create_update_message`: the entry of
`all_servers`, or `0.0.0.0:0` when the destination is unknown. -/
def destAddr (st : ServerState) (d : ℕ) : Addr :=
  match dictGet? st.all_servers d with
  | some a => a
  | none => ⟨⟨0, 0, 0, 0⟩, 0⟩

/-- One 20-byte record of `create_update_message`: destination address from
`all_servers` (or `0.0.0.0:0` when absent), four zero padding bytes, the
destination id and the encoded cost. -/
def encRecord (st : ServerState) (p : ℕ × RoutingEntry) : Option (List ℕ) :=
  let dest : Addr := destAddr st p.1
  do
    let ipb ← ipBytes dest.ip
    let portb ← packU32 dest.port
    let idb ← packU32 p.1
    let costb ← packI32 (costWord p.2.cost)
    pure (ipb ++ portb ++ be32 0 ++ idb ++ costb)

/-- The record-emission loop of `create_update_message`. -/
def encodeRecords (st : ServerState) : List (ℕ × RoutingEntry) → Option (List (List ℕ))
  | [] => some []
  | p :: rest => do
    let r ← encRecord st p
    let rs ← encodeRecords st rest
    pure (r :: rs)

/-- The method `DVServer.create_update_message`: 12-byte header (entry count 4,
sender port 4, sender IP 4) followed by one 20-byte record per routing-table
entry, in table order. -/
def create_update_message (st : ServerState) : Option (List ℕ) := do
  let countb ← packU32 st.routing_table.length
  let portb ← packU32 st.server_port
  let ipb ← ipBytes st.server_ip
  let recs ← encodeRecords st st.routing_table
  pure (countb ++ portb ++ ipb ++ recs.flatten)

/-! ### Bellman-Ford update engine (`update_routing_table`) -/

/-- The body of the per-destination loop of `update_routing_table`: skip the
self entry; otherwise compute the candidate cost through the sender, insert a
fresh unreachable entry for an unknown destination, then apply the
improvement branch or the forced-refresh branch. -/
def relaxEntry (server_id sender_id : ℕ) (c_us : Cost) (now : ℚ)
    (rt : List (ℕ × RoutingEntry)) (dc : ℕ × Cost) : List (ℕ × RoutingEntry) :=
  if dc.1 = server_id then rt
  else
    let cand := c_us.add dc.2
    let rt1 :=
      match dictGet? rt dc.1 with
      | some _ => rt
      | none => rt ++ [(dc.1, ⟨dc.1, none, Cost.inf, now⟩)]
    let cur : RoutingEntry :=
      match dictGet? rt dc.1 with
      | some e => e
      | none => ⟨dc.1, none, Cost.inf, now⟩
    if cand.ltb cur.cost then
      dictAssign rt1 dc.1
        { cur with next_hop_id := some sender_id, cost := cand, last_update_time := now }
    else if cur.next_hop_id = some sender_id ∧ cand ≠ cur.cost then
      dictAssign rt1 dc.1 { cur with cost := cand, last_update_time := now }
    else rt1

/-- The method `DVServer.update_routing_table`: drop the announcement when the sender is
not a registered neighbor, otherwise relax every advertised entry in order.
(The `table_changed` flag the source returns is discarded by its caller.) -/
def update_routing_table (st : ServerState) (now : ℚ) (sender_id : ℕ)
    (entries : List (ℕ × Cost)) : ServerState :=
  match dictGet? st.neighbors sender_id with
  | none => st
  | some nb =>
    { st with
      routing_table :=
        entries.foldl (relaxEntry st.server_id sender_id nb.cost now) st.routing_table }

/-! ### Timeout sweep and operator commands -/

/-- The route-invalidation step shared by `check_neighbor_timeouts` and
`handle_disable_command`: a route whose next hop is the dead neighbor gets
cost `inf`; its `next_hop_id` field is left as it was. -/
def sweepRoute (n : ℕ) (now : ℚ) (e : RoutingEntry) : RoutingEntry :=
  if e.next_hop_id = some n then { e with cost := Cost.inf, last_update_time := now }
  else e

/-- One iteration of the loop of `check_neighbor_timeouts`, for the snapshot
pair `(neighbor_id, last_update)`.  (A key present in
`neighbor_last_update` but absent from `neighbors` would raise in Python;
both maps are created with the same keys and no operation changes them, so
the guard match is never the `none` case on states built by `initState`.) -/
def sweepNeighbor (threshold now : ℚ) (st : ServerState) (p : ℕ × ℚ) : ServerState :=
  if threshold < now - p.2 then
    match dictGet? st.neighbors p.1 with
    | none => st
    | some nb =>
      if nb.cost = Cost.inf then st
      else
        { st with
          neighbors := dictAssign st.neighbors p.1 { nb with cost := Cost.inf },
          routing_table := st.routing_table.map (fun q => (q.1, sweepRoute p.1 now q.2)) }
  else st

/-- The method `DVServer.check_neighbor_timeouts`, with `timeout_threshold =
TIMEOUT_MULTIPLIER * update_interval` and `TIMEOUT_MULTIPLIER = 3`. -/
def check_neighbor_timeouts (st : ServerState) (now : ℚ) : ServerState :=
  st.neighbor_last_update.foldl (sweepNeighbor (3 * st.update_interval) now) st

/-- The method `DVServer.handle_update_command`, after the `int`/`float` argument
parsing has succeeded (the returned `Bool` is `true` exactly on the
`... SUCCESS` output).  No check on the sign of `new_cost` is performed. -/
def handle_update_command (st : ServerState) (now : ℚ) (server1 server2 : ℕ)
    (new_cost : Cost) : Bool × ServerState :=
  if server1 ≠ st.server_id ∧ server2 ≠ st.server_id then (false, st)
  else
    let neighbor_id := if server1 = st.server_id then server2 else server1
    match dictGet? st.neighbors neighbor_id with
    | none => (false, st)
    | some nb =>
      let st1 := { st with neighbors := dictAssign st.neighbors neighbor_id { nb with cost := new_cost } }
      match dictGet? st1.routing_table neighbor_id with
      | some e =>
        (true,
          { st1 with
            routing_table :=
              dictAssign st1.routing_table neighbor_id
                { e with cost := new_cost, last_update_time := now } })
      | none => (true, st1)

/-- The method `DVServer.handle_disable_command`, after `int` parsing of the argument. -/
def handle_disable_command (st : ServerState) (now : ℚ) (sid : ℕ) : Bool × ServerState :=
  match dictGet? st.neighbors sid with
  | none => (false, st)
  | some nb =>
    let neighbors1 := dictAssign st.neighbors sid { nb with cost := Cost.inf }
    let rt1 :=
      match dictGet? st.routing_table sid with
      | some e => dictAssign st.routing_table sid { e with cost := Cost.inf, last_update_time := now }
      | none => st.routing_table
    let rt2 := rt1.map (fun q => (q.1, sweepRoute sid now q.2))
    (true, { st with neighbors := neighbors1, routing_table := rt2 })

/-! ### Receive pipeline and reachable states -/

/-- The per-datagram body of `DVServer.receive_thread`: the packet counter is
incremented before any parsing; on a successful parse the sender's
`last_heard` timestamp is refreshed (when it is a neighbor) and the update
engine runs. -/
def applyDatagram (st : ServerState) (now : ℚ) (data : List ℕ) (sender_addr : Addr) :
    ServerState :=
  let st1 := { st with packets_received := st.packets_received + 1 }
  match parse_update_message st1 data sender_addr with
  | none => st1
  | some (sender_id, entries) =>
    let st2 :=
      match dictGet? st1.neighbor_last_update sender_id with
      | some _ =>
        { st1 with neighbor_last_update := dictAssign st1.neighbor_last_update sender_id now }
      | none => st1
    update_routing_table st2 now sender_id entries

/-- The topology-file data consumed by `DVServer.parse_topology_file`. -/
structure TopologyData where
  my_server_id : ℕ
  my_ip : IPv4
  my_port : ℕ
  servers : List (ℕ × Addr)
  neighbors : List (ℕ × Cost)
deriving Repr

/-- The method `DVServer.initialize_routing_table`: self at cost 0, direct neighbors at
their link cost, every other known server unreachable. -/
def initRoutingTable (t : TopologyData) (t0 : ℚ) : List (ℕ × RoutingEntry) :=
  let rt0 : List (ℕ × RoutingEntry) :=
    dictAssign [] t.my_server_id ⟨t.my_server_id, some t.my_server_id, Cost.fin 0, t0⟩
  let rt1 := t.neighbors.foldl
    (fun rt p => dictAssign rt p.1 ⟨p.1, some p.1, p.2, t0⟩) rt0
  t.servers.foldl
    (fun rt p =>
      match dictGet? rt p.1 with
      | some _ => rt
      | none => rt ++ [(p.1, ⟨p.1, none, Cost.inf, t0⟩)])
    rt1

/-- One entry of the initial neighbor registry
(`parse_topology_file`: address copied from `all_servers`, cost from the
topology; a neighbor absent from the server list would raise in Python and
is given a placeholder address here). -/
def mkNeighborInfo (t : TopologyData) (k : ℕ) (c : Cost) : NeighborInfo where
  ip := match dictGet? t.servers k with | some a => a.ip | none => ⟨0, 0, 0, 0⟩
  port := match dictGet? t.servers k with | some a => a.port | none => 0
  cost := c

/-- A freshly started server (`__init__`: parse the topology file, populate
the neighbor registry and last-update map, initialize the routing table). -/
def initState (t : TopologyData) (interval t0 : ℚ) : ServerState where
  server_id := t.my_server_id
  server_ip := t.my_ip
  server_port := t.my_port
  routing_table := initRoutingTable t t0
  neighbors := t.neighbors.map (fun p => (p.1, mkNeighborInfo t p.1 p.2))
  neighbor_last_update := t.neighbors.map (fun p => (p.1, t0))
  all_servers := t.servers
  packets_received := 0
  update_interval := interval

/-- One state transition of the running daemon: a datagram processed by the
receive thread, an operator `update`, `disable` or `packets` command, or one
timeout sweep of the periodic thread.  (`step` and `display` do not mutate
this state; `crash` terminates the process.) -/
inductive Step : ServerState → ServerState → Prop where
  | recv (st : ServerState) (now : ℚ) (data : List ℕ) (sender_addr : Addr) :
      Step st (applyDatagram st now data sender_addr)
  | cmd_update (st : ServerState) (now : ℚ) (s1 s2 : ℕ) (c : Cost) :
      Step st (handle_update_command st now s1 s2 c).2
  | cmd_disable (st : ServerState) (now : ℚ) (sid : ℕ) :
      Step st (handle_disable_command st now sid).2
  | cmd_packets (st : ServerState) :
      Step st { st with packets_received := 0 }
  | sweep (st : ServerState) (now : ℚ) :
      Step st (check_neighbor_timeouts st now)

/-- States reachable from a freshly started server by any interleaving of
received datagrams, operator commands and timeout sweeps. -/
inductive Reachable (t : TopologyData) (interval t0 : ℚ) : ServerState → Prop where
  | init : Reachable t interval t0 (initState t interval t0)
  | step {s s' : ServerState} :
      Reachable t interval t0 s → Step s s' → Reachable t interval t0 s'

/-- The helper `CommandHandler._invalidate_routes_through_neighbor` from `commands.py`:
routes through the neighbor get cost `inf` and the out-of-band next-hop
sentinel `-1`.  No server id is `-1`, so the sentinel is modelled by `none`
(the role `dv.py` gives to Python `None`). -/
def invalidateRoute (n : ℕ) (now : ℚ) (e : RoutingEntry) : RoutingEntry :=
  if e.next_hop_id = some n then
    { e with cost := Cost.inf, next_hop_id := none, last_update_time := now }
  else e

/-- The method `CommandHandler.handle_update` from `commands.py` (the repository's
second command layer; `dv.py` never imports it), after argument parsing:
unlike `DVServer.handle_update_command` it rejects negative costs, refreshes
`neighbor_last_update`, and on cost `inf` invalidates all routes through the
neighbor. -/
def cmdhandler_handle_update (st : ServerState) (now : ℚ) (server1 server2 : ℕ)
    (cost : Cost) : Bool × ServerState :=
  if (match cost with | Cost.fin c => decide (c < 0) | Cost.inf => false) then (false, st)
  else if st.server_id ≠ server1 ∧ st.server_id ≠ server2 then (false, st)
  else
    let neighbor_id := if server1 = st.server_id then server2 else server1
    match dictGet? st.neighbors neighbor_id with
    | none => (false, st)
    | some nb =>
      let st1 :=
        { st with
          neighbors := dictAssign st.neighbors neighbor_id { nb with cost := cost }
          neighbor_last_update := dictAssign st.neighbor_last_update neighbor_id now }
      if cost = Cost.inf then
        (true,
          { st1 with
            routing_table :=
              st1.routing_table.map (fun q => (q.1, invalidateRoute neighbor_id now q.2)) })
      else
        match dictGet? st1.routing_table neighbor_id with
        | some e =>
          if e.next_hop_id = some neighbor_id then
            (true,
              { st1 with
                routing_table :=
                  dictAssign st1.routing_table neighbor_id
                    { e with cost := cost, last_update_time := now } })
          else (true, st1)
        | none => (true, st1)

/-- The effect of one iteration of the update-engine loop on the entry it
relaxes, as a function of the previous entry alone. -/
def relaxAt (sender_id : ℕ) (c_us : Cost) (now : ℚ) (dc : ℕ × Cost)
    (cur? : Option RoutingEntry) : RoutingEntry :=
  let cand := c_us.add dc.2
  let cur := cur?.getD ⟨dc.1, none, Cost.inf, now⟩
  if cand.ltb cur.cost then
    { cur with next_hop_id := some sender_id, cost := cand, last_update_time := now }
  else if cur.next_hop_id = some sender_id ∧ cand ≠ cur.cost then
    { cur with cost := cand, last_update_time := now }
  else cur

/-- Every routing entry whose next hop is `n` carries infinite cost. -/
def RouteInfInv (n : ℕ) (rt : List (ℕ × RoutingEntry)) : Prop :=
  ∀ d e, dictGet? rt d = some e → e.next_hop_id = some n → e.cost = Cost.inf

/-- The part of the state invariant carried by the routing table against a
fixed neighbor registry: (a) an entry with no next hop has infinite cost, (b)
an entry keyed by a registered neighbor has a next hop, (c) every registered
neighbor has a routing entry. -/
def GoodRT (nbs : List (ℕ × NeighborInfo)) (rt : List (ℕ × RoutingEntry)) : Prop :=
  (∀ p ∈ rt, p.2.next_hop_id = none → p.2.cost = Cost.inf) ∧
  (∀ p ∈ rt, (dictGet? nbs p.1).isSome = true → ¬ p.2.next_hop_id = none) ∧
  (∀ q ∈ nbs, (dictGet? rt q.1).isSome = true)

/-- The state invariant maintained by every operation of the daemon. -/
def Inv (st : ServerState) : Prop := GoodRT st.neighbors st.routing_table

/-! ### Concrete example states -/

/-- A four-node topology as seen from server 1: 10.0.0.1:2000, neighbors
2 (cost 5) and 3 (cost 8), server 4 known but not adjacent. -/
def exTop : TopologyData where
  my_server_id := 1
  my_ip := ⟨10, 0, 0, 1⟩
  my_port := 2000
  servers := [(1, ⟨⟨10, 0, 0, 1⟩, 2000⟩), (2, ⟨⟨10, 0, 0, 2⟩, 2001⟩),
              (3, ⟨⟨10, 0, 0, 3⟩, 2002⟩), (4, ⟨⟨10, 0, 0, 4⟩, 2003⟩)]
  neighbors := [(2, Cost.fin 5), (3, Cost.fin 8)]

/-- Server 1 freshly started with update interval 5 at time 0. -/
def exSt : ServerState := initState exTop 5 0

/-- The datagram server 1 emits in `exSt`. -/
def exMsg : List ℕ := (create_update_message exSt).getD []

/-- State `exSt` with its routing table cut down to a single infinite-cost entry. -/
def exSt1 : ServerState := { exSt with routing_table := [(2, ⟨2, some 2, Cost.inf, 0⟩)] }

/-- State `exSt` with a finite cost at the wire sentinel value `999999`. -/
def exSt999 : ServerState :=
  { exSt with routing_table := [(1, ⟨1, some 1, Cost.fin 0, 0⟩),
                                (2, ⟨2, some 2, Cost.fin 999999, 0⟩)] }

/-- State `exSt` after the operator command `disable 2` at time 1. -/
def exStInf : ServerState := (handle_disable_command exSt 1 2).2

/-- State `exSt` after an announcement from neighbor 2 advertising destination 3 at
cost 1 (so the route to 3 goes through 2 at cost 6). -/
def exStVia2 : ServerState := update_routing_table exSt 7 2 [(3, Cost.fin 1)]

/-- State `exSt` after the operator command `update 1 2 2.5` at time 0: the
link and direct route to 2 carry the fractional cost `5/2`. -/
def exStHalf : ServerState := (handle_update_command exSt 0 1 2 (Cost.fin (5/2))).2

/-- A single 20-byte wire record advertising destination 2 at cost 7. -/
def exRec : List ℕ := List.replicate 12 0 ++ be32 2 ++ be32 7


/-! ### Association-list (dict) lemmas -/

theorem dictGet?_nil {α : Type} (k : ℕ) : dictGet? ([] : List (ℕ × α)) k = none := rfl

theorem dictGet?_cons {α : Type} (x : ℕ × α) (l : List (ℕ × α)) (k : ℕ) :
    dictGet? (x :: l) k = if x.1 = k then some x.2 else dictGet? l k := by
  by_cases h : x.1 = k
  · simp [dictGet?, List.find?_cons, h]
  · simp [dictGet?, List.find?_cons, h]

theorem dictGet?_some_mem {α : Type} {l : List (ℕ × α)} {k : ℕ} {v : α}
    (h : dictGet? l k = some v) : (k, v) ∈ l := by
  induction l with
  | nil => simp [dictGet?] at h
  | cons x t ih =>
    rw [dictGet?_cons] at h
    by_cases hx : x.1 = k
    · simp only [if_pos hx] at h
      obtain ⟨a, b⟩ := x
      obtain rfl : a = k := hx
      obtain rfl : b = v := by simpa using h
      exact List.mem_cons_self _ _
    · rw [if_neg hx] at h
      exact List.mem_cons_of_mem _ (ih h)

theorem dictGet?_eq_none_iff {α : Type} {l : List (ℕ × α)} {k : ℕ} :
    dictGet? l k = none ↔ ∀ p ∈ l, p.1 ≠ k := by
  induction l with
  | nil => simp [dictGet?]
  | cons x t ih =>
    rw [dictGet?_cons]
    by_cases hx : x.1 = k <;> simp [hx, ih]

theorem dictAssign_of_none {α : Type} {l : List (ℕ × α)} {k : ℕ} (v : α)
    (h : dictGet? l k = none) : dictAssign l k v = l ++ [(k, v)] := by
  have hf : l.find? (fun p => p.1 == k) = none := by
    cases hf : l.find? (fun p => p.1 == k) with
    | none => rfl
    | some q => simp [dictGet?, hf] at h
  simp [dictAssign, hf]

theorem dictGet?_append {α : Type} (l m : List (ℕ × α)) (k : ℕ) :
    dictGet? (l ++ m) k = (dictGet? l k).or (dictGet? m k) := by
  induction l with
  | nil => simp [dictGet?]
  | cons x t ih =>
    rw [List.cons_append, dictGet?_cons, dictGet?_cons]
    by_cases hx : x.1 = k <;> simp [hx, ih]

theorem dictGet?_dictAssign_self {α : Type} (l : List (ℕ × α)) (k : ℕ) (v : α) :
    dictGet? (dictAssign l k v) k = some v := by
  cases hf : l.find? (fun p => p.1 == k) with
  | none =>
    have h0 : dictGet? l k = none := by simp [dictGet?, hf]
    rw [dictAssign_of_none v h0, dictGet?_append, h0]
    simp [dictGet?_cons]
  | some q =>
    simp only [dictAssign, hf]
    have hq : q ∈ l ∧ q.1 = k :=
      ⟨List.mem_of_find?_eq_some hf, by simpa using List.find?_some hf⟩
    have hex : ∃ r ∈ l, r.1 = k := ⟨q, hq.1, hq.2⟩
    clear hf hq
    induction l with
    | nil => simp at hex
    | cons x t ih =>
      by_cases hx : x.1 = k
      · simp only [List.map_cons, if_pos (show (x.1 == k) = true by simpa using hx)]
        rw [dictGet?_cons]
        simp
      · simp only [List.map_cons, if_neg (show ¬ (x.1 == k) = true by simpa using hx)]
        rw [dictGet?_cons, if_neg hx]
        apply ih
        rcases hex with ⟨r, hr, hrk⟩
        rcases List.mem_cons.mp hr with rfl | hr'
        · exact absurd hrk hx
        · exact ⟨r, hr', hrk⟩

theorem dictGet?_map_replace {α : Type} (l : List (ℕ × α)) {k k' : ℕ} (v : α)
    (h : k' ≠ k) :
    dictGet? (l.map (fun p => if p.1 == k then (k, v) else p)) k' = dictGet? l k' := by
  induction l with
  | nil => rfl
  | cons x t ih =>
    by_cases hx : x.1 = k
    · rw [List.map_cons]
      simp only [if_pos (show (x.1 == k) = true by simpa using hx)]
      rw [dictGet?_cons, dictGet?_cons, if_neg (Ne.symm h), if_neg (fun hk : x.1 = k' => by
        rw [← hk, hx] at h
        exact h rfl)]
      exact ih
    · rw [List.map_cons]
      simp only [if_neg (show ¬ (x.1 == k) = true by simpa using hx)]
      rw [dictGet?_cons, dictGet?_cons]
      by_cases hx' : x.1 = k'
      · rw [if_pos hx', if_pos hx']
      · rw [if_neg hx', if_neg hx']
        exact ih

theorem dictGet?_dictAssign_ne {α : Type} (l : List (ℕ × α)) {k k' : ℕ} (v : α)
    (h : k' ≠ k) : dictGet? (dictAssign l k v) k' = dictGet? l k' := by
  cases hf : l.find? (fun p => p.1 == k) with
  | none =>
    have h0 : dictGet? l k = none := by simp [dictGet?, hf]
    rw [dictAssign_of_none v h0, dictGet?_append]
    have hsing : dictGet? [(k, v)] k' = none := by
      rw [dictGet?_cons, if_neg (Ne.symm h)]
      rfl
    rw [hsing]
    cases dictGet? l k' <;> rfl
  | some q =>
    simp only [dictAssign, hf]
    exact dictGet?_map_replace l v h

theorem mem_dictAssign {α : Type} {l : List (ℕ × α)} {k : ℕ} {v : α} {p : ℕ × α}
    (h : p ∈ dictAssign l k v) : p = (k, v) ∨ p ∈ l := by
  unfold dictAssign at h
  cases hf : l.find? (fun q => q.1 == k) with
  | none =>
    rw [hf] at h
    rcases List.mem_append.mp h with h' | h'
    · exact Or.inr h'
    · exact Or.inl (by simpa using h')
  | some q =>
    rw [hf] at h
    rcases List.mem_map.mp h with ⟨r, hr, hrp⟩
    by_cases hx : (r.1 == k) = true
    · rw [if_pos hx] at hrp
      exact Or.inl hrp.symm
    · rw [if_neg hx] at hrp
      exact Or.inr (hrp ▸ hr)

theorem dictGet?_map_val {α β : Type} (g : ℕ → α → β) (l : List (ℕ × α)) (k : ℕ) :
    dictGet? (l.map (fun p => (p.1, g p.1 p.2))) k = (dictGet? l k).map (g k) := by
  induction l with
  | nil => rfl
  | cons x t ih =>
    rw [List.map_cons, dictGet?_cons, dictGet?_cons]
    by_cases hx : x.1 = k
    · rw [if_pos hx, if_pos hx, hx]
      rfl
    · rw [if_neg hx, if_neg hx]
      exact ih

theorem dictAssign_isSome {α : Type} (l : List (ℕ × α)) (k k' : ℕ) (v : α) :
    (dictGet? (dictAssign l k v) k').isSome ↔ k' = k ∨ (dictGet? l k').isSome := by
  by_cases h : k' = k
  · subst h
    simp [dictGet?_dictAssign_self]
  · rw [dictGet?_dictAssign_ne l v h]
    simp [h]

/-- Folding Python dict assignments of pairwise-distinct fresh keys onto an
accumulator just appends them. -/
theorem foldl_dictAssign_fresh {α : Type} :
    ∀ (l acc : List (ℕ × α)), (∀ p ∈ l, dictGet? acc p.1 = none) →
      (l.map Prod.fst).Nodup →
      l.foldl (fun a p => dictAssign a p.1 p.2) acc = acc ++ l := by
  intro l
  induction l with
  | nil => intro acc _ _; simp
  | cons x t ih =>
    intro acc hfresh hnodup
    have hx : dictGet? acc x.1 = none := hfresh x (List.mem_cons_self _ _)
    rw [List.foldl_cons, dictAssign_of_none x.2 hx]
    have hnd : x.1 ∉ t.map Prod.fst ∧ (t.map Prod.fst).Nodup := by
      rw [List.map_cons] at hnodup
      exact List.nodup_cons.mp hnodup
    rw [ih (acc ++ [(x.1, x.2)])
      (by
        intro p hp
        have hne : ¬ x.1 = p.1 := by
          intro hcontra
          exact hnd.1 (hcontra ▸ List.mem_map_of_mem Prod.fst hp)
        rw [dictGet?_append, hfresh p (List.mem_cons_of_mem _ hp), dictGet?_cons, if_neg hne]
        rfl)
      hnd.2]
    simp

/-- With pairwise-distinct keys, accumulating parsed records into the Python
dict `entries` preserves the record list. -/
theorem dictOf_nodup {l : List (ℕ × Cost)} (h : (l.map Prod.fst).Nodup) :
    dictOf l = l := by
  have := foldl_dictAssign_fresh l [] (by intro p _; rfl) h
  simpa [dictOf] using this

/-! ### Byte-level lemmas for the wire codec -/

theorem getD_append_right (l₁ l₂ : List ℕ) (i : ℕ) :
    (l₁ ++ l₂).getD (l₁.length + i) 0 = l₂.getD i 0 := by
  induction l₁ with
  | nil => simp
  | cons x t ih =>
    rw [List.cons_append, show (x :: t).length + i = (t.length + i) + 1 by
      simp [Nat.add_comm, Nat.add_assoc, Nat.add_left_comm], List.getD_cons_succ, ih]

theorem getD_append_left (l₁ l₂ : List ℕ) {i : ℕ} (h : i < l₁.length) :
    (l₁ ++ l₂).getD i 0 = l₁.getD i 0 := by
  induction l₁ generalizing i with
  | nil => simp at h
  | cons x t ih =>
    cases i with
    | zero => rfl
    | succ n =>
      rw [List.cons_append, List.getD_cons_succ, List.getD_cons_succ]
      exact ih (by simpa using h)

theorem readBE32_append_right (l₁ l₂ : List ℕ) (j : ℕ) :
    readBE32 (l₁ ++ l₂) (l₁.length + j) = readBE32 l₂ j := by
  simp only [readBE32, Nat.add_assoc, getD_append_right]

theorem readBE32_shift (l₁ l₂ : List ℕ) (j k : ℕ) (h : j = l₁.length + k) :
    readBE32 (l₁ ++ l₂) j = readBE32 l₂ k := by
  rw [h]
  exact readBE32_append_right l₁ l₂ k

theorem readBE32_append_left (l₁ l₂ : List ℕ) {j : ℕ} (h : j + 4 ≤ l₁.length) :
    readBE32 (l₁ ++ l₂) j = readBE32 l₁ j := by
  unfold readBE32
  rw [getD_append_left _ _ (by omega), getD_append_left _ _ (by omega),
    getD_append_left _ _ (by omega), getD_append_left _ _ (by omega)]

theorem readBE32_be32_append (v : ℕ) (h : v < 2 ^ 32) (rest : List ℕ) :
    readBE32 (be32 v ++ rest) 0 = v := by
  simp only [be32, readBE32, List.cons_append, List.getD_cons_zero, List.getD_cons_succ]
  norm_num
  omega

theorem readBE32_be32 (v : ℕ) (h : v < 2 ^ 32) : readBE32 (be32 v) 0 = v := by
  have := readBE32_be32_append v h []
  rwa [List.append_nil] at this

theorem packU32_some {v : ℕ} {l : List ℕ} (h : packU32 v = some l) :
    v < 2 ^ 32 ∧ l = be32 v := by
  unfold packU32 at h
  by_cases hv : v < 2 ^ 32
  · rw [if_pos hv] at h
    exact ⟨hv, (Option.some_inj.mp h).symm⟩
  · rw [if_neg hv] at h
    exact absurd h (Option.noConfusion)

theorem packI32_some {v : ℤ} {l : List ℕ} (h : packI32 v = some l) :
    0 ≤ v ∧ v < 2 ^ 32 ∧ l = be32 v.toNat := by
  unfold packI32 at h
  by_cases hv : 0 ≤ v ∧ v < 2 ^ 32
  · rw [if_pos hv] at h
    exact ⟨hv.1, hv.2, (Option.some_inj.mp h).symm⟩
  · rw [if_neg hv] at h
    exact absurd h (Option.noConfusion)

theorem ipBytes_some {ip : IPv4} {l : List ℕ} (h : ipBytes ip = some l) :
    l = [ip.a, ip.b, ip.c, ip.d] ∧ l.length = 4 := by
  unfold ipBytes at h
  by_cases hv : ip.a < 256 ∧ ip.b < 256 ∧ ip.c < 256 ∧ ip.d < 256
  · rw [if_pos hv] at h
    exact ⟨(Option.some_inj.mp h).symm, by rw [(Option.some_inj.mp h).symm]; rfl⟩
  · rw [if_neg hv] at h
    exact absurd h (Option.noConfusion)

/-- Unpacking of one successfully encoded routing record: 20 bytes whose
padding field is zero and whose id and cost fields read back exactly. -/
theorem encRecord_facts {st : ServerState} {p : ℕ × RoutingEntry} {rec : List ℕ}
    (h : encRecord st p = some rec) :
    rec.length = 20 ∧ readBE32 rec 8 = 0 ∧ readBE32 rec 12 = p.1 ∧
      readBE32 rec 16 = (costWord p.2.cost).toNat ∧
      0 ≤ costWord p.2.cost ∧ costWord p.2.cost < 2 ^ 32 ∧ p.1 < 2 ^ 32 := by
  rw [encRecord] at h
  simp only [Option.bind_eq_bind, Option.bind_eq_some, Option.pure_def, Option.some_inj] at h
  obtain ⟨ipb, hip, portb, hport, idb, hid, costb, hcost, hrec⟩ := h
  obtain ⟨hipb, hiplen⟩ := ipBytes_some hip
  obtain ⟨hportlt, hportb⟩ := packU32_some hport
  obtain ⟨hidlt, hidb⟩ := packU32_some hid
  obtain ⟨hc0, hclt, hcostb⟩ := packI32_some hcost
  have hlen : rec.length = 20 := by
    rw [← hrec]
    simp [hiplen, hportb, hidb, hcostb, be32]
  have h8 : readBE32 rec 8 = 0 := by
    have hre : rec = (ipb ++ portb) ++ (be32 0 ++ (idb ++ costb)) := by
      rw [← hrec]
      simp [List.append_assoc]
    rw [hre, readBE32_shift _ _ 8 0 (by simp [hiplen, hportb, be32]),
      readBE32_be32_append 0 (by norm_num)]
  have h12 : readBE32 rec 12 = p.1 := by
    have hre : rec = (ipb ++ portb ++ be32 0) ++ (idb ++ costb) := by
      rw [← hrec]
      simp [List.append_assoc]
    rw [hre, readBE32_shift _ _ 12 0 (by simp [hiplen, hportb, be32]), hidb,
      readBE32_be32_append p.1 hidlt]
  have h16 : readBE32 rec 16 = (costWord p.2.cost).toNat := by
    have hre : rec = (ipb ++ portb ++ be32 0 ++ idb) ++ costb := by
      rw [← hrec]
    rw [hre, readBE32_shift _ _ 16 0 (by simp [hiplen, hportb, hidb, be32]), hcostb,
      readBE32_be32 _ (by
        have := hclt
        omega)]
  refine ⟨hlen, h8, h12, h16, hc0, hclt, hidlt⟩

/-- Parsing the concatenation of successfully encoded records (placed after
an arbitrary prefix, at the offset of that prefix) recovers every destination
id together with the wire-decoded image of its cost. -/
theorem parseEntries_encodeRecords (st : ServerState) :
    ∀ (rt : List (ℕ × RoutingEntry)) (recs : List (List ℕ)) (pre : List ℕ),
      encodeRecords st rt = some recs →
      parseEntries (pre ++ recs.flatten) rt.length pre.length =
        some (rt.map (fun p => (p.1, wireCost (costWord p.2.cost).toNat))) := by
  intro rt
  induction rt with
  | nil =>
    intro recs pre h
    have h0 : (some [] : Option (List (List ℕ))) = some recs := h
    obtain rfl : recs = [] := (Option.some_inj.mp h0).symm
    rfl
  | cons p rt ih =>
    intro recs pre h
    rw [encodeRecords] at h
    simp only [Option.bind_eq_bind, Option.bind_eq_some, Option.pure_def, Option.some_inj] at h
    obtain ⟨r, hr, rs, hrs, hrecs⟩ := h
    subst hrecs
    obtain ⟨hrlen, hrpad, hrid, hrcost, hc0, hclt, hidlt⟩ := encRecord_facts hr
    have hflat : (r :: rs).flatten = r ++ rs.flatten := by simp
    rw [hflat]
    have hdlen : (pre ++ (r ++ rs.flatten)).length = pre.length + (20 + rs.flatten.length) := by
      simp [hrlen]
    have h12' : readBE32 (pre ++ (r ++ rs.flatten)) (pre.length + 12) = p.1 := by
      rw [readBE32_shift pre _ _ 12 rfl, readBE32_append_left r _ (by omega)]
      exact hrid
    have h16' : readBE32 (pre ++ (r ++ rs.flatten)) (pre.length + 16) =
        (costWord p.2.cost).toNat := by
      rw [readBE32_shift pre _ _ 16 rfl, readBE32_append_left r _ (by omega)]
      exact hrcost
    have hrec' : parseEntries (pre ++ (r ++ rs.flatten)) rt.length (pre.length + 20) =
        some (rt.map (fun q => (q.1, wireCost (costWord q.2.cost).toNat))) := by
      have hih := ih rs (pre ++ r) hrs
      rw [List.append_assoc, List.length_append, hrlen] at hih
      exact hih
    rw [show (p :: rt).length = rt.length + 1 from rfl, parseEntries,
      if_neg (by omega), hrec', h12', h16']
    rfl

/-- Structure of a successfully built update datagram: count, port, sender
IP and the concatenated records. -/
theorem create_update_message_eq {st : ServerState} {msg : List ℕ}
    (h : create_update_message st = some msg) :
    ∃ recs, encodeRecords st st.routing_table = some recs ∧
      msg = be32 st.routing_table.length ++ be32 st.server_port ++
        [st.server_ip.a, st.server_ip.b, st.server_ip.c, st.server_ip.d] ++ recs.flatten ∧
      st.routing_table.length < 2 ^ 32 ∧ st.server_port < 2 ^ 32 ∧
      st.server_ip.a < 256 ∧ st.server_ip.b < 256 ∧ st.server_ip.c < 256 ∧
      st.server_ip.d < 256 := by
  rw [create_update_message] at h
  simp only [Option.bind_eq_bind, Option.bind_eq_some, Option.pure_def, Option.some_inj] at h
  obtain ⟨countb, hcount, portb, hport, ipb, hip, recs, hrecs, hmsg⟩ := h
  obtain ⟨hclt, hcb⟩ := packU32_some hcount
  obtain ⟨hplt, hpb⟩ := packU32_some hport
  have hipoct : st.server_ip.a < 256 ∧ st.server_ip.b < 256 ∧ st.server_ip.c < 256 ∧
      st.server_ip.d < 256 := by
    unfold ipBytes at hip
    by_cases hv : st.server_ip.a < 256 ∧ st.server_ip.b < 256 ∧ st.server_ip.c < 256 ∧
        st.server_ip.d < 256
    · exact hv
    · rw [if_neg hv] at hip
      exact absurd hip (Option.noConfusion)
  obtain ⟨hipb, _⟩ := ipBytes_some hip
  exact ⟨recs, hrecs, by rw [← hmsg, hcb, hpb, hipb], hclt, hplt,
    hipoct.1, hipoct.2.1, hipoct.2.2.1, hipoct.2.2.2⟩

theorem encodeRecords_nonneg {st : ServerState} :
    ∀ {rt : List (ℕ × RoutingEntry)} {recs : List (List ℕ)},
      encodeRecords st rt = some recs → ∀ p ∈ rt, 0 ≤ costWord p.2.cost := by
  intro rt
  induction rt with
  | nil => intro recs _ p hp; simp at hp
  | cons q rt ih =>
    intro recs h p hp
    rw [encodeRecords] at h
    simp only [Option.bind_eq_bind, Option.bind_eq_some, Option.pure_def, Option.some_inj] at h
    obtain ⟨r, hr, rs, hrs, _⟩ := h
    rcases List.mem_cons.mp hp with rfl | hp'
    · exact (encRecord_facts hr).2.2.2.2.1
    · exact ih hrs p hp'

theorem wireCost_costWord {C : Cost} (h0 : 0 ≤ costWord C)
    (hint : C.isInt = true)
    (hlt : costWord C < 999999 ∨ C = Cost.inf) :
    wireCost (costWord C).toNat = C := by
  cases C with
  | inf => rfl
  | fin c =>
    have hden : c.den = 1 := by simpa [Cost.isInt] using hint
    have hw : costWord (Cost.fin c) = c.num := by
      rw [show costWord (Cost.fin c) = c.num.tdiv c.den from rfl, hden, Nat.cast_one,
        Int.tdiv_one]
    have hcc : c.num < 999999 := by
      rcases hlt with hlt | hlt
      · rw [hw] at hlt; exact hlt
      · exact absurd hlt (by intro hx; exact Cost.noConfusion hx)
    have h0' : (0 : ℤ) ≤ c.num := by rw [hw] at h0; exact h0
    rw [hw]
    unfold wireCost
    rw [if_neg (by omega)]
    congr 1
    have hcast : ((c.num.toNat : ℤ) : ℚ) = (c.num : ℚ) := by
      rw [Int.toNat_of_nonneg h0']
    have hq : (c.num : ℚ) = c := (Rat.den_eq_one_iff c).mp hden
    push_cast at hcast
    rw [hcast, hq]

/-- Round trip through the wire codec: parsing a successfully built update
datagram recovers the local server id and the exact destination-to-cost map
of the routing table, provided every cost is integer-valued (so the `int()`
truncation at emission is the identity) with every finite value below the
wire sentinel `INFINITY = 999999`, and the local address resolves to the
local id in the peer directory. -/
theorem parse_of_create {st : ServerState} {msg : List ℕ}
    (henc : create_update_message st = some msg)
    (hkeys : (st.routing_table.map Prod.fst).Nodup)
    (hself : findServer st.all_servers st.server_ip st.server_port = some st.server_id)
    (hint : ∀ p ∈ st.routing_table, (p.2.cost).isInt = true)
    (hfin : ∀ p ∈ st.routing_table, costWord p.2.cost < 999999 ∨ p.2.cost = Cost.inf) :
    parse_update_message st msg ⟨st.server_ip, st.server_port⟩ =
      some (st.server_id, st.routing_table.map (fun p => (p.1, p.2.cost))) := by
  obtain ⟨recs, hrecs, hmsg, hNlt, hplt, ha, hb, hc, hd⟩ := create_update_message_eq henc
  have hpre : msg = (be32 st.routing_table.length ++ be32 st.server_port ++
      [st.server_ip.a, st.server_ip.b, st.server_ip.c, st.server_ip.d]) ++ recs.flatten := hmsg
  have hprelen : (be32 st.routing_table.length ++ be32 st.server_port ++
      [st.server_ip.a, st.server_ip.b, st.server_ip.c, st.server_ip.d]).length = 12 := by
    simp [be32]
  have hlen : ¬ msg.length < 12 := by
    rw [hpre, List.length_append, hprelen]
    omega
  have hN : readBE32 msg 0 = st.routing_table.length := by
    have hmsg' : msg = be32 st.routing_table.length ++ (be32 st.server_port ++
        ([st.server_ip.a, st.server_ip.b, st.server_ip.c, st.server_ip.d] ++ recs.flatten)) := by
      rw [hmsg]
      simp [List.append_assoc]
    rw [hmsg', readBE32_be32_append _ hNlt]
  have hP : readBE32 msg 4 = st.server_port := by
    have hmsg' : msg = be32 st.routing_table.length ++ (be32 st.server_port ++
        ([st.server_ip.a, st.server_ip.b, st.server_ip.c, st.server_ip.d] ++ recs.flatten)) := by
      rw [hmsg]
      simp [List.append_assoc]
    rw [hmsg', readBE32_shift _ _ 4 0 (by simp [be32]), readBE32_be32_append _ hplt]
  have hmsg8 : msg = (be32 st.routing_table.length ++ be32 st.server_port) ++
      ([st.server_ip.a, st.server_ip.b, st.server_ip.c, st.server_ip.d] ++ recs.flatten) := by
    rw [hmsg]
    simp [List.append_assoc]
  have hlen8 : (be32 st.routing_table.length ++ be32 st.server_port).length = 8 := by
    simp [be32]
  have hIP : (⟨msg.getD 8 0, msg.getD 9 0, msg.getD 10 0, msg.getD 11 0⟩ : IPv4) =
      st.server_ip := by
    have g8 : msg.getD 8 0 = st.server_ip.a := by
      rw [hmsg8, show (8 : ℕ) =
        (be32 st.routing_table.length ++ be32 st.server_port).length + 0 by rw [hlen8],
        getD_append_right]
      rfl
    have g9 : msg.getD 9 0 = st.server_ip.b := by
      rw [hmsg8, show (9 : ℕ) =
        (be32 st.routing_table.length ++ be32 st.server_port).length + 1 by rw [hlen8],
        getD_append_right]
      rfl
    have g10 : msg.getD 10 0 = st.server_ip.c := by
      rw [hmsg8, show (10 : ℕ) =
        (be32 st.routing_table.length ++ be32 st.server_port).length + 2 by rw [hlen8],
        getD_append_right]
      rfl
    have g11 : msg.getD 11 0 = st.server_ip.d := by
      rw [hmsg8, show (11 : ℕ) =
        (be32 st.routing_table.length ++ be32 st.server_port).length + 3 by rw [hlen8],
        getD_append_right]
      rfl
    rw [g8, g9, g10, g11]
  have hEntries : parseEntries msg (readBE32 msg 0) 12 =
      some (st.routing_table.map (fun p => (p.1, wireCost (costWord p.2.cost).toNat))) := by
    rw [hN]
    have := parseEntries_encodeRecords st st.routing_table recs
      (be32 st.routing_table.length ++ be32 st.server_port ++
        [st.server_ip.a, st.server_ip.b, st.server_ip.c, st.server_ip.d]) hrecs
    rw [hprelen, ← hpre] at this
    exact this
  have hcosts : st.routing_table.map (fun p => (p.1, wireCost (costWord p.2.cost).toNat)) =
      st.routing_table.map (fun p => (p.1, p.2.cost)) := by
    apply List.map_congr_left
    intro p hp
    rw [wireCost_costWord (encodeRecords_nonneg hrecs p hp) (hint p hp) (hfin p hp)]
  rw [parse_update_message, if_neg hlen]
  simp only
  rw [hP, hIP, hself, hEntries]
  simp only [Option.map_some']
  rw [hcosts, dictOf_nodup (by simpa [List.map_map] using hkeys)]

/-! ### Characterization of the update engine -/

theorem dictGet?_append_single_ne {α : Type} (l : List (ℕ × α)) {k k' : ℕ} (v : α)
    (h : k' ≠ k) : dictGet? (l ++ [(k, v)]) k' = dictGet? l k' := by
  rw [dictGet?_append, dictGet?_cons, if_neg (Ne.symm h)]
  cases dictGet? l k' <;> rfl

theorem dictGet?_append_single_self {α : Type} {l : List (ℕ × α)} {k : ℕ} (v : α)
    (h : dictGet? l k = none) : dictGet? (l ++ [(k, v)]) k = some v := by
  rw [dictGet?_append, h, dictGet?_cons, if_pos rfl]
  rfl

theorem relaxEntry_self {sid s : ℕ} {c : Cost} {now : ℚ} {rt : List (ℕ × RoutingEntry)}
    {dc : ℕ × Cost} (h : dc.1 = sid) : relaxEntry sid s c now rt dc = rt := by
  rw [relaxEntry, if_pos h]

theorem relaxEntry_frame (sid s : ℕ) (c : Cost) (now : ℚ) (rt : List (ℕ × RoutingEntry))
    (dc : ℕ × Cost) {d' : ℕ} (h : d' ≠ dc.1) :
    dictGet? (relaxEntry sid s c now rt dc) d' = dictGet? rt d' := by
  rw [relaxEntry]
  by_cases hs : dc.1 = sid
  · rw [if_pos hs]
  · rw [if_neg hs]
    cases hcur : dictGet? rt dc.1 with
    | some e =>
      simp only [hcur]
      by_cases h1 : (c.add dc.2).ltb e.cost
      · rw [if_pos h1, dictGet?_dictAssign_ne _ _ h]
      · rw [if_neg h1]
        by_cases h2 : e.next_hop_id = some s ∧ c.add dc.2 ≠ e.cost
        · rw [if_pos h2, dictGet?_dictAssign_ne _ _ h]
        · rw [if_neg h2]
    | none =>
      simp only [hcur]
      by_cases h1 : (c.add dc.2).ltb Cost.inf
      · rw [if_pos h1, dictGet?_dictAssign_ne _ _ h, dictGet?_append_single_ne _ _ h]
      · rw [if_neg h1]
        rw [if_neg (by simp)]
        rw [dictGet?_append_single_ne _ _ h]

theorem relaxEntry_lookup (sid s : ℕ) (c : Cost) (now : ℚ) (rt : List (ℕ × RoutingEntry))
    (dc : ℕ × Cost) (h : ¬ dc.1 = sid) :
    dictGet? (relaxEntry sid s c now rt dc) dc.1 =
      some (relaxAt s c now dc (dictGet? rt dc.1)) := by
  rw [relaxEntry, if_neg h, relaxAt]
  cases hcur : dictGet? rt dc.1 with
  | some e =>
    simp only [hcur, Option.getD_some]
    by_cases h1 : (c.add dc.2).ltb e.cost
    · rw [if_pos h1, if_pos h1, dictGet?_dictAssign_self]
    · rw [if_neg h1, if_neg h1]
      by_cases h2 : e.next_hop_id = some s ∧ c.add dc.2 ≠ e.cost
      · rw [if_pos h2, if_pos h2, dictGet?_dictAssign_self]
      · rw [if_neg h2, if_neg h2, hcur]
  | none =>
    simp only [hcur, Option.getD_none]
    by_cases h1 : (c.add dc.2).ltb Cost.inf
    · rw [if_pos h1, if_pos h1, dictGet?_dictAssign_self]
    · rw [if_neg h1, if_neg h1]
      rw [if_neg (by simp), if_neg (by simp)]
      rw [dictGet?_append_single_self _ hcur]

theorem foldl_relax_frame (sid s : ℕ) (c : Cost) (now : ℚ) :
    ∀ (es : List (ℕ × Cost)) (rt : List (ℕ × RoutingEntry)) {d : ℕ},
      d ∉ es.map Prod.fst →
      dictGet? (es.foldl (relaxEntry sid s c now) rt) d = dictGet? rt d := by
  intro es
  induction es with
  | nil => intro rt d _; rfl
  | cons e t ih =>
    intro rt d hd
    rw [List.map_cons] at hd
    have hne : d ≠ e.1 := fun hc => hd (hc ▸ List.mem_cons_self _ _)
    have hnt : d ∉ t.map Prod.fst := fun hm => hd (List.mem_cons_of_mem _ hm)
    rw [List.foldl_cons, ih _ hnt, relaxEntry_frame sid s c now rt e hne]

theorem nodup_keys_eq {α : Type} {L : List (ℕ × α)} (h : (L.map Prod.fst).Nodup)
    {p q : ℕ × α} (hp : p ∈ L) (hq : q ∈ L) (hk : p.1 = q.1) : p = q := by
  induction L with
  | nil => simp at hp
  | cons x t ih =>
    rw [List.map_cons] at h
    obtain ⟨h1, h2⟩ := List.nodup_cons.mp h
    rcases List.mem_cons.mp hp with rfl | hp' <;> rcases List.mem_cons.mp hq with rfl | hq'
    · rfl
    · exact absurd (hk ▸ List.mem_map_of_mem Prod.fst hq') h1
    · exact absurd (hk ▸ List.mem_map_of_mem Prod.fst hp') h1
    · exact ih h2 hp' hq'

theorem foldl_relax_lookup (sid s : ℕ) (c : Cost) (now : ℚ) :
    ∀ (es : List (ℕ × Cost)) (rt : List (ℕ × RoutingEntry)) {d : ℕ} {cv : Cost},
      (es.map Prod.fst).Nodup → (d, cv) ∈ es → ¬ d = sid →
      dictGet? (es.foldl (relaxEntry sid s c now) rt) d =
        some (relaxAt s c now (d, cv) (dictGet? rt d)) := by
  intro es
  induction es with
  | nil => intro rt d cv _ h _; simp at h
  | cons e t ih =>
    intro rt d cv hnd hmem hds
    rw [List.map_cons] at hnd
    obtain ⟨hd1, hd2⟩ := List.nodup_cons.mp hnd
    rw [List.foldl_cons]
    rcases List.mem_cons.mp hmem with he | hmem'
    · rw [← he] at hd1 ⊢
      rw [foldl_relax_frame sid s c now t _ hd1]
      exact relaxEntry_lookup sid s c now rt (d, cv) hds
    · have hdm : d ∈ t.map Prod.fst := List.mem_map_of_mem Prod.fst hmem'
      have hne : d ≠ e.1 := fun hc => hd1 (hc ▸ hdm)
      rw [ih _ hd2 hmem' hds, relaxEntry_frame sid s c now rt e hne]

/-- An announcement whose sender is not in the neighbor registry leaves the
whole state unchanged. -/
theorem update_routing_table_unknown_sender {st : ServerState} {now : ℚ} {s : ℕ}
    {es : List (ℕ × Cost)} (h : dictGet? st.neighbors s = none) :
    update_routing_table st now s es = st := by
  rw [update_routing_table, h]

/-! ### Characterization of the timeout sweep and the disable command -/

theorem sweepNeighbor_not_timed {θ now : ℚ} {st : ServerState} {p : ℕ × ℚ}
    (h : ¬ θ < now - p.2) : sweepNeighbor θ now st p = st := by
  rw [sweepNeighbor, if_neg h]

theorem sweepNeighbor_missing {θ now : ℚ} {st : ServerState} {p : ℕ × ℚ}
    (h : dictGet? st.neighbors p.1 = none) : sweepNeighbor θ now st p = st := by
  by_cases ht : θ < now - p.2
  · simp only [sweepNeighbor, if_pos ht, h]
  · exact sweepNeighbor_not_timed ht

theorem sweepNeighbor_inf {θ now : ℚ} {st : ServerState} {p : ℕ × ℚ} {nb : NeighborInfo}
    (h : dictGet? st.neighbors p.1 = some nb) (hc : nb.cost = Cost.inf) :
    sweepNeighbor θ now st p = st := by
  by_cases ht : θ < now - p.2
  · simp only [sweepNeighbor, if_pos ht, h]
    rw [if_pos hc]
  · exact sweepNeighbor_not_timed ht

theorem sweepNeighbor_fire {θ now : ℚ} {st : ServerState} {p : ℕ × ℚ} {nb : NeighborInfo}
    (ht : θ < now - p.2) (h : dictGet? st.neighbors p.1 = some nb)
    (hc : ¬ nb.cost = Cost.inf) :
    sweepNeighbor θ now st p =
      { st with
        neighbors := dictAssign st.neighbors p.1 { nb with cost := Cost.inf },
        routing_table := st.routing_table.map (fun q => (q.1, sweepRoute p.1 now q.2)) } := by
  simp only [sweepNeighbor, if_pos ht, h]
  rw [if_neg hc]

theorem sweepNeighbor_neighbors_ne {θ now : ℚ} {st : ServerState} {p : ℕ × ℚ} {n : ℕ}
    (h : p.1 ≠ n) :
    dictGet? (sweepNeighbor θ now st p).neighbors n = dictGet? st.neighbors n := by
  by_cases ht : θ < now - p.2
  · cases hnb : dictGet? st.neighbors p.1 with
    | none => rw [sweepNeighbor_missing hnb]
    | some nb =>
      by_cases hc : nb.cost = Cost.inf
      · rw [sweepNeighbor_inf hnb hc]
      · rw [sweepNeighbor_fire ht hnb hc]
        exact dictGet?_dictAssign_ne _ _ (Ne.symm h)
  · rw [sweepNeighbor_not_timed ht]

theorem foldl_sweep_neighbors (θ now : ℚ) :
    ∀ (L : List (ℕ × ℚ)) (st : ServerState) (n : ℕ),
      (∀ p ∈ L, p.1 = n → ¬ θ < now - p.2) →
      dictGet? ((L.foldl (sweepNeighbor θ now) st)).neighbors n = dictGet? st.neighbors n := by
  intro L
  induction L with
  | nil => intro st n _; rfl
  | cons p t ih =>
    intro st n h
    rw [List.foldl_cons, ih _ n (fun q hq => h q (List.mem_cons_of_mem _ hq))]
    by_cases hp : p.1 = n
    · rw [sweepNeighbor_not_timed (h p (List.mem_cons_self _ _) hp)]
    · exact sweepNeighbor_neighbors_ne hp

theorem RouteInfInv_sweepMap (n : ℕ) (now : ℚ) (rt : List (ℕ × RoutingEntry)) :
    RouteInfInv n (rt.map (fun q => (q.1, sweepRoute n now q.2))) := by
  intro d e hget hnh
  rw [dictGet?_map_val (fun _ e => sweepRoute n now e)] at hget
  obtain ⟨e0, he0, rfl⟩ := Option.map_eq_some'.mp hget
  unfold sweepRoute at hnh ⊢
  by_cases hh : e0.next_hop_id = some n
  · rw [if_pos hh]
  · rw [if_neg hh] at hnh
    exact absurd hnh hh

theorem RouteInfInv_sweepMap_other {n m : ℕ} {now : ℚ} {rt : List (ℕ × RoutingEntry)}
    (h : RouteInfInv n rt) :
    RouteInfInv n (rt.map (fun q => (q.1, sweepRoute m now q.2))) := by
  intro d e hget hnh
  rw [dictGet?_map_val (fun _ e => sweepRoute m now e)] at hget
  obtain ⟨e0, he0, rfl⟩ := Option.map_eq_some'.mp hget
  unfold sweepRoute at hnh ⊢
  by_cases hh : e0.next_hop_id = some m
  · rw [if_pos hh]
  · rw [if_neg hh] at hnh ⊢
    exact h d e0 he0 hnh

theorem RouteInfInv_sweepNeighbor {θ now : ℚ} {st : ServerState} {p : ℕ × ℚ} {n : ℕ}
    (h : RouteInfInv n st.routing_table) :
    RouteInfInv n (sweepNeighbor θ now st p).routing_table := by
  by_cases ht : θ < now - p.2
  · cases hnb : dictGet? st.neighbors p.1 with
    | none => rw [sweepNeighbor_missing hnb]; exact h
    | some nb =>
      by_cases hc : nb.cost = Cost.inf
      · rw [sweepNeighbor_inf hnb hc]; exact h
      · rw [sweepNeighbor_fire ht hnb hc]
        exact RouteInfInv_sweepMap_other h
  · rw [sweepNeighbor_not_timed ht]; exact h

theorem RouteInfInv_foldl_sweep {θ now : ℚ} {n : ℕ} :
    ∀ (L : List (ℕ × ℚ)) (st : ServerState), RouteInfInv n st.routing_table →
      RouteInfInv n ((L.foldl (sweepNeighbor θ now) st)).routing_table := by
  intro L
  induction L with
  | nil => intro st h; exact h
  | cons p t ih =>
    intro st h
    rw [List.foldl_cons]
    exact ih _ (RouteInfInv_sweepNeighbor h)

/-- Full characterization of one timeout sweep with respect to a single
neighbor `n` with a live (finite) link: if the time since `n`'s last update
strictly exceeds `3 *` the update interval, `n`'s link cost becomes infinite
and every route whose next hop is `n` ends with infinite cost; otherwise
`n`'s registry entry is untouched. -/
theorem check_neighbor_timeouts_spec (st : ServerState) (now : ℚ) (n : ℕ) (last : ℚ)
    (nb : NeighborInfo)
    (hkeys : (st.neighbor_last_update.map Prod.fst).Nodup)
    (hmem : (n, last) ∈ st.neighbor_last_update)
    (hnb : dictGet? st.neighbors n = some nb)
    (hfin : ¬ nb.cost = Cost.inf) :
    (3 * st.update_interval < now - last →
      dictGet? (check_neighbor_timeouts st now).neighbors n = some { nb with cost := Cost.inf } ∧
      RouteInfInv n (check_neighbor_timeouts st now).routing_table) ∧
    (¬ 3 * st.update_interval < now - last →
      dictGet? (check_neighbor_timeouts st now).neighbors n = some nb) := by
  obtain ⟨L1, L2, hsplit⟩ := List.append_of_mem hmem
  have hkeys' := hkeys
  rw [hsplit, List.map_append, List.map_cons] at hkeys'
  obtain ⟨hnd1, hnd2, hdisj⟩ := List.nodup_append.mp hkeys'
  have hn1 : ∀ p ∈ L1, p.1 ≠ n := by
    intro p hp hpn
    exact hdisj (by rw [← hpn]; exact List.mem_map.mpr ⟨p, hp, rfl⟩)
      (List.mem_cons_self _ _)
  have hn2 : ∀ p ∈ L2, p.1 ≠ n := by
    intro p hp hpn
    exact (List.nodup_cons.mp hnd2).1
      (by rw [← hpn]; exact List.mem_map.mpr ⟨p, hp, rfl⟩)
  have hrw : check_neighbor_timeouts st now =
      L2.foldl (sweepNeighbor (3 * st.update_interval) now)
        (sweepNeighbor (3 * st.update_interval) now
          (L1.foldl (sweepNeighbor (3 * st.update_interval) now) st) (n, last)) := by
    rw [check_neighbor_timeouts, hsplit, List.foldl_append, List.foldl_cons]
  have hst1 : dictGet?
      ((L1.foldl (sweepNeighbor (3 * st.update_interval) now) st)).neighbors n =
      some nb := by
    rw [foldl_sweep_neighbors _ _ L1 st n (fun p hp hpn => absurd hpn (hn1 p hp))]
    exact hnb
  constructor
  · intro ht
    have hfire := @sweepNeighbor_fire (3 * st.update_interval) now
      (L1.foldl (sweepNeighbor (3 * st.update_interval) now) st) (n, last) nb ht hst1 hfin
    constructor
    · rw [hrw, foldl_sweep_neighbors _ _ L2 _ n (fun p hp hpn => absurd hpn (hn2 p hp)),
        hfire]
      exact dictGet?_dictAssign_self _ _ _
    · rw [hrw]
      apply RouteInfInv_foldl_sweep
      rw [hfire]
      exact RouteInfInv_sweepMap n now _
  · intro ht
    rw [hrw, sweepNeighbor_not_timed ht,
      foldl_sweep_neighbors _ _ L2 _ n (fun p hp hpn => absurd hpn (hn2 p hp))]
    exact hst1

theorem sweepRoute_next_hop (n : ℕ) (now : ℚ) (e : RoutingEntry) :
    (sweepRoute n now e).next_hop_id = e.next_hop_id := by
  unfold sweepRoute
  by_cases h : e.next_hop_id = some n
  · rw [if_pos h]
  · rw [if_neg h]

/-- The `disable` command on a registered neighbor: reports success, sets the
neighbor's link cost to infinity, gives every route whose next hop is that
neighbor infinite cost, and leaves every next-hop field exactly as it was. -/
theorem handle_disable_command_spec {st : ServerState} {now : ℚ} {sid : ℕ}
    {nb : NeighborInfo} (hnb : dictGet? st.neighbors sid = some nb) :
    (handle_disable_command st now sid).1 = true ∧
    dictGet? (handle_disable_command st now sid).2.neighbors sid =
      some { nb with cost := Cost.inf } ∧
    RouteInfInv sid (handle_disable_command st now sid).2.routing_table ∧
    ∀ d, (dictGet? (handle_disable_command st now sid).2.routing_table d).map
        RoutingEntry.next_hop_id =
      (dictGet? st.routing_table d).map RoutingEntry.next_hop_id := by
  have hunf : handle_disable_command st now sid =
      (true,
        { st with
          neighbors := dictAssign st.neighbors sid { nb with cost := Cost.inf },
          routing_table :=
            (match dictGet? st.routing_table sid with
              | some e =>
                dictAssign st.routing_table sid
                  { e with cost := Cost.inf, last_update_time := now }
              | none => st.routing_table).map
              (fun (q : ℕ × RoutingEntry) => (q.1, sweepRoute sid now q.2)) }) := by
    simp only [handle_disable_command, hnb]
  refine ⟨by rw [hunf], by rw [hunf]; exact dictGet?_dictAssign_self _ _ _, ?_, ?_⟩
  · rw [hunf]
    exact RouteInfInv_sweepMap sid now _
  · intro d
    rw [hunf]
    simp only
    rw [dictGet?_map_val (fun _ e => sweepRoute sid now e)]
    have hmap : ∀ o : Option RoutingEntry,
        ((o.map (sweepRoute sid now)).map RoutingEntry.next_hop_id) =
          o.map RoutingEntry.next_hop_id := by
      intro o
      cases o with
      | none => rfl
      | some e =>
        simp only [Option.map_some']
        rw [sweepRoute_next_hop]
    rw [hmap]
    cases hrt : dictGet? st.routing_table sid with
    | none => simp only [hrt]
    | some e =>
      simp only [hrt]
      by_cases hd : d = sid
      · subst hd
        rw [dictGet?_dictAssign_self, hrt]
        rfl
      · rw [dictGet?_dictAssign_ne _ _ hd]

/-- The `update` command, on arguments that pass all of its checks: reports
success, sets the link cost to the given value (whatever its sign), updates
the neighbor's own routing entry to that cost when present, and touches no
other routing entry. -/
theorem handle_update_command_spec {st : ServerState} {now : ℚ} {s1 s2 : ℕ} {c : Cost}
    {nb : NeighborInfo} (hs : ¬ (s1 ≠ st.server_id ∧ s2 ≠ st.server_id))
    (hnb : dictGet? st.neighbors (if s1 = st.server_id then s2 else s1) = some nb) :
    (handle_update_command st now s1 s2 c).1 = true ∧
    dictGet? (handle_update_command st now s1 s2 c).2.neighbors
        (if s1 = st.server_id then s2 else s1) = some { nb with cost := c } ∧
    ((dictGet? st.routing_table (if s1 = st.server_id then s2 else s1)).elim
      (dictGet? (handle_update_command st now s1 s2 c).2.routing_table
          (if s1 = st.server_id then s2 else s1) =
        dictGet? st.routing_table (if s1 = st.server_id then s2 else s1))
      (fun e => dictGet? (handle_update_command st now s1 s2 c).2.routing_table
          (if s1 = st.server_id then s2 else s1) =
        some { e with cost := c, last_update_time := now })) ∧
    ∀ d, d ≠ (if s1 = st.server_id then s2 else s1) →
      dictGet? (handle_update_command st now s1 s2 c).2.routing_table d =
        dictGet? st.routing_table d := by
  have hunf1 : handle_update_command st now s1 s2 c =
      (let nid := if s1 = st.server_id then s2 else s1
       let st1 := { st with neighbors := dictAssign st.neighbors nid { nb with cost := c } }
       match dictGet? st1.routing_table nid with
       | some e =>
         (true,
           { st1 with
             routing_table :=
               dictAssign st1.routing_table nid { e with cost := c, last_update_time := now } })
       | none => (true, st1)) := by
    simp only [handle_update_command, if_neg hs, hnb]
  cases hrt : dictGet? st.routing_table (if s1 = st.server_id then s2 else s1) with
  | none =>
    rw [hunf1]
    simp only [hrt]
    refine ⟨trivial, dictGet?_dictAssign_self _ _ _, ?_, ?_⟩ <;> simp
  | some e =>
    rw [hunf1]
    simp only [hrt]
    refine ⟨trivial, dictGet?_dictAssign_self _ _ _, ?_, ?_⟩
    · exact dictGet?_dictAssign_self _ _ _
    · intro d hd
      exact dictGet?_dictAssign_ne _ _ hd

/-! ### The reachable-state invariant -/

theorem GoodRT_relaxEntry {nbs : List (ℕ × NeighborInfo)} {rt : List (ℕ × RoutingEntry)}
    (sid s : ℕ) (c : Cost) (now : ℚ) (dc : ℕ × Cost)
    (h : GoodRT nbs rt) : GoodRT nbs (relaxEntry sid s c now rt dc) := by
  obtain ⟨hA, hB, hC⟩ := h
  rw [relaxEntry]
  by_cases hs : dc.1 = sid
  · rw [if_pos hs]
    exact ⟨hA, hB, hC⟩
  rw [if_neg hs]
  cases hcur : dictGet? rt dc.1 with
  | some e =>
    simp only [hcur]
    by_cases h1 : (c.add dc.2).ltb e.cost
    · rw [if_pos h1]
      refine ⟨?_, ?_, ?_⟩
      · intro p hp hnone
        rcases mem_dictAssign hp with rfl | hp'
        · simp at hnone
        · exact hA p hp' hnone
      · intro p hp hsome
        rcases mem_dictAssign hp with rfl | hp'
        · simp
        · exact hB p hp' hsome
      · intro q hq
        exact (dictAssign_isSome rt dc.1 q.1 _).mpr (Or.inr (hC q hq))
    · rw [if_neg h1]
      by_cases h2 : e.next_hop_id = some s ∧ ¬ c.add dc.2 = e.cost
      · rw [if_pos h2]
        refine ⟨?_, ?_, ?_⟩
        · intro p hp hnone
          rcases mem_dictAssign hp with rfl | hp'
          · rw [show ((dc.1, ({ e with cost := c.add dc.2, last_update_time := now } :
              RoutingEntry))).2.next_hop_id = e.next_hop_id from rfl, h2.1] at hnone
            exact Option.noConfusion hnone
          · exact hA p hp' hnone
        · intro p hp hsome
          rcases mem_dictAssign hp with rfl | hp'
          · rw [show ((dc.1, ({ e with cost := c.add dc.2, last_update_time := now } :
              RoutingEntry))).2.next_hop_id = e.next_hop_id from rfl, h2.1]
            exact Option.noConfusion
          · exact hB p hp' hsome
        · intro q hq
          exact (dictAssign_isSome rt dc.1 q.1 _).mpr (Or.inr (hC q hq))
      · rw [if_neg h2]
        exact ⟨hA, hB, hC⟩
  | none =>
    simp only [hcur]
    have hnb : dictGet? nbs dc.1 = none := by
      cases hn : dictGet? nbs dc.1 with
      | none => rfl
      | some x =>
        have hx := hC _ (dictGet?_some_mem hn)
        rw [show ((dc.1, x)).1 = dc.1 from rfl, hcur] at hx
        exact absurd hx (by simp)
    by_cases h1 : (c.add dc.2).ltb Cost.inf
    · rw [if_pos h1]
      refine ⟨?_, ?_, ?_⟩
      · intro p hp hnone
        rcases mem_dictAssign hp with rfl | hp'
        · simp at hnone
        · rcases List.mem_append.mp hp' with hp2 | hp2
          · exact hA p hp2 hnone
          · have hpe : p = (dc.1, ⟨dc.1, none, Cost.inf, now⟩) := by simpa using hp2
            rw [hpe]
      · intro p hp hsome
        rcases mem_dictAssign hp with rfl | hp'
        · simp
        · rcases List.mem_append.mp hp' with hp2 | hp2
          · exact hB p hp2 hsome
          · have hpe : p = (dc.1, ⟨dc.1, none, Cost.inf, now⟩) := by simpa using hp2
            rw [hpe, show ((dc.1, (⟨dc.1, none, Cost.inf, now⟩ : RoutingEntry))).1 = dc.1
              from rfl, hnb] at hsome
            exact absurd hsome (by simp)
      · intro q hq
        refine (dictAssign_isSome _ dc.1 q.1 _).mpr ?_
        by_cases hqd : q.1 = dc.1
        · exact Or.inl hqd
        · refine Or.inr ?_
          rw [dictGet?_append_single_ne _ _ hqd]
          exact hC q hq
    · rw [if_neg h1, if_neg (by simp)]
      refine ⟨?_, ?_, ?_⟩
      · intro p hp hnone
        rcases List.mem_append.mp hp with hp2 | hp2
        · exact hA p hp2 hnone
        · have hpe : p = (dc.1, ⟨dc.1, none, Cost.inf, now⟩) := by simpa using hp2
          rw [hpe]
      · intro p hp hsome
        rcases List.mem_append.mp hp with hp2 | hp2
        · exact hB p hp2 hsome
        · have hpe : p = (dc.1, ⟨dc.1, none, Cost.inf, now⟩) := by simpa using hp2
          rw [hpe, show ((dc.1, (⟨dc.1, none, Cost.inf, now⟩ : RoutingEntry))).1 = dc.1
            from rfl, hnb] at hsome
          exact absurd hsome (by simp)
      · intro q hq
        by_cases hqd : q.1 = dc.1
        · rw [hqd, dictGet?_append_single_self _ hcur]
          rfl
        · rw [dictGet?_append_single_ne _ _ hqd]
          exact hC q hq

theorem GoodRT_foldl_relax {nbs : List (ℕ × NeighborInfo)} (sid s : ℕ) (c : Cost) (now : ℚ) :
    ∀ (es : List (ℕ × Cost)) (rt : List (ℕ × RoutingEntry)), GoodRT nbs rt →
      GoodRT nbs (es.foldl (relaxEntry sid s c now) rt) := by
  intro es
  induction es with
  | nil => intro rt h; exact h
  | cons e t ih =>
    intro rt h
    rw [List.foldl_cons]
    exact ih _ (GoodRT_relaxEntry sid s c now e h)

theorem dictGet?_isSome_of_mem {α : Type} {l : List (ℕ × α)} {p : ℕ × α} (h : p ∈ l) :
    (dictGet? l p.1).isSome = true := by
  induction l with
  | nil => simp at h
  | cons x t ih =>
    rw [dictGet?_cons]
    by_cases hx : x.1 = p.1
    · rw [if_pos hx]
      rfl
    · rw [if_neg hx]
      rcases List.mem_cons.mp h with rfl | h'
      · exact absurd rfl hx
      · exact ih h'

theorem GoodRT_map_sweep {nbs : List (ℕ × NeighborInfo)} {rt : List (ℕ × RoutingEntry)}
    (n : ℕ) (now : ℚ) (h : GoodRT nbs rt) :
    GoodRT nbs (rt.map (fun q => (q.1, sweepRoute n now q.2))) := by
  obtain ⟨hA, hB, hC⟩ := h
  refine ⟨?_, ?_, ?_⟩
  · intro p hp hnone
    rcases List.mem_map.mp hp with ⟨q, hq, rfl⟩
    unfold sweepRoute at hnone ⊢
    by_cases hh : q.2.next_hop_id = some n
    · rw [show ((q.1, if q.2.next_hop_id = some n
        then { q.2 with cost := Cost.inf, last_update_time := now } else q.2)).2 =
          (if q.2.next_hop_id = some n
            then { q.2 with cost := Cost.inf, last_update_time := now } else q.2) from rfl,
        if_pos hh]
    · rw [show ((q.1, if q.2.next_hop_id = some n
        then { q.2 with cost := Cost.inf, last_update_time := now } else q.2)).2 =
          (if q.2.next_hop_id = some n
            then { q.2 with cost := Cost.inf, last_update_time := now } else q.2) from rfl,
        if_neg hh] at hnone ⊢
      exact hA q hq hnone
  · intro p hp hsome
    rcases List.mem_map.mp hp with ⟨q, hq, rfl⟩
    have hq' : ¬ q.2.next_hop_id = none := hB q hq hsome
    rw [show ((q.1, sweepRoute n now q.2)).2.next_hop_id = (sweepRoute n now q.2).next_hop_id
      from rfl, sweepRoute_next_hop]
    exact hq'
  · intro q hq
    rw [dictGet?_map_val (fun _ e => sweepRoute n now e)]
    rcases Option.isSome_iff_exists.mp (hC q hq) with ⟨v, hv⟩
    rw [hv]
    rfl

theorem GoodRT_neighbors_assign {nbs : List (ℕ × NeighborInfo)} {rt : List (ℕ × RoutingEntry)}
    {n : ℕ} {nb : NeighborInfo} (v : NeighborInfo)
    (hnb : dictGet? nbs n = some nb) (h : GoodRT nbs rt) : GoodRT (dictAssign nbs n v) rt := by
  obtain ⟨hA, hB, hC⟩ := h
  refine ⟨hA, ?_, ?_⟩
  · intro p hp hsome
    rcases (dictAssign_isSome nbs n p.1 v).mp hsome with heq | hold
    · exact hB p hp (by rw [heq, hnb]; rfl)
    · exact hB p hp hold
  · intro q hq
    rcases mem_dictAssign hq with rfl | hq'
    · exact hC (n, nb) (dictGet?_some_mem hnb)
    · exact hC q hq'

theorem GoodRT_assign_cost {nbs : List (ℕ × NeighborInfo)} {rt : List (ℕ × RoutingEntry)}
    {n : ℕ} {e : RoutingEntry} (c' : Cost) (now' : ℚ)
    (hrt : dictGet? rt n = some e) (hsafe : ¬ e.next_hop_id = none ∨ c' = Cost.inf)
    (h : GoodRT nbs rt) :
    GoodRT nbs (dictAssign rt n { e with cost := c', last_update_time := now' }) := by
  obtain ⟨hA, hB, hC⟩ := h
  refine ⟨?_, ?_, ?_⟩
  · intro p hp hnone
    rcases mem_dictAssign hp with rfl | hp'
    · rcases hsafe with hne | hinf
      · exact absurd hnone hne
      · rw [show ((n, ({ e with cost := c', last_update_time := now' } :
          RoutingEntry))).2.cost = c' from rfl, hinf]
    · exact hA p hp' hnone
  · intro p hp hsome
    rcases mem_dictAssign hp with rfl | hp'
    · exact hB (n, e) (dictGet?_some_mem hrt) hsome
    · exact hB p hp' hsome
  · intro q hq
    exact (dictAssign_isSome rt n q.1 _).mpr (Or.inr (hC q hq))

theorem Inv_update_routing_table {st : ServerState} (now : ℚ) (s : ℕ)
    (es : List (ℕ × Cost)) (h : Inv st) : Inv (update_routing_table st now s es) := by
  rw [update_routing_table]
  cases hnb : dictGet? st.neighbors s with
  | none => exact h
  | some nb =>
    show GoodRT st.neighbors _
    exact GoodRT_foldl_relax st.server_id s nb.cost now es st.routing_table h

theorem Inv_applyDatagram {st : ServerState} (now : ℚ) (data : List ℕ) (sender_addr : Addr)
    (h : Inv st) : Inv (applyDatagram st now data sender_addr) := by
  rw [applyDatagram]
  cases hp : parse_update_message
      { st with packets_received := st.packets_received + 1 } data sender_addr with
  | none => exact h
  | some pr =>
    obtain ⟨sid, es⟩ := pr
    simp only
    cases hlu : dictGet? ({ st with packets_received := st.packets_received + 1 } :
        ServerState).neighbor_last_update sid with
    | none => exact Inv_update_routing_table now sid es h
    | some x => exact Inv_update_routing_table now sid es h

theorem Inv_handle_update_command {st : ServerState} (now : ℚ) (s1 s2 : ℕ) (c : Cost)
    (h : Inv st) : Inv (handle_update_command st now s1 s2 c).2 := by
  by_cases hs : s1 ≠ st.server_id ∧ s2 ≠ st.server_id
  · simp only [handle_update_command, if_pos hs]
    exact h
  cases hnb : dictGet? st.neighbors (if s1 = st.server_id then s2 else s1) with
  | none =>
    simp only [handle_update_command, if_neg hs, hnb]
    exact h
  | some nb =>
    cases hrt : dictGet? st.routing_table (if s1 = st.server_id then s2 else s1) with
    | none =>
      simp only [handle_update_command, if_neg hs, hnb, hrt]
      exact GoodRT_neighbors_assign _ hnb h
    | some e =>
      simp only [handle_update_command, if_neg hs, hnb, hrt]
      refine GoodRT_assign_cost c now hrt (Or.inl ?_) (GoodRT_neighbors_assign _ hnb h)
      exact h.2.1 ((if s1 = st.server_id then s2 else s1), e) (dictGet?_some_mem hrt)
        (by rw [hnb]; rfl)

theorem Inv_handle_disable_command {st : ServerState} (now : ℚ) (sid : ℕ)
    (h : Inv st) : Inv (handle_disable_command st now sid).2 := by
  cases hnb : dictGet? st.neighbors sid with
  | none =>
    simp only [handle_disable_command, hnb]
    exact h
  | some nb =>
    cases hrt : dictGet? st.routing_table sid with
    | none =>
      simp only [handle_disable_command, hnb, hrt]
      exact GoodRT_map_sweep sid now (GoodRT_neighbors_assign _ hnb h)
    | some e =>
      simp only [handle_disable_command, hnb, hrt]
      exact GoodRT_map_sweep sid now
        (GoodRT_assign_cost Cost.inf now hrt (Or.inr rfl) (GoodRT_neighbors_assign _ hnb h))

theorem Inv_sweepNeighbor {θ now : ℚ} {st : ServerState} {p : ℕ × ℚ}
    (h : Inv st) : Inv (sweepNeighbor θ now st p) := by
  by_cases ht : θ < now - p.2
  · cases hnb : dictGet? st.neighbors p.1 with
    | none =>
      rw [sweepNeighbor_missing hnb]
      exact h
    | some nb =>
      by_cases hc : nb.cost = Cost.inf
      · rw [sweepNeighbor_inf hnb hc]
        exact h
      · rw [sweepNeighbor_fire ht hnb hc]
        exact GoodRT_map_sweep p.1 now (GoodRT_neighbors_assign _ hnb h)
  · rw [sweepNeighbor_not_timed ht]
    exact h

theorem Inv_foldl_sweep (θ now : ℚ) :
    ∀ (L : List (ℕ × ℚ)) (st : ServerState), Inv st →
      Inv (L.foldl (sweepNeighbor θ now) st) := by
  intro L
  induction L with
  | nil => intro st h; exact h
  | cons p t ih =>
    intro st h
    rw [List.foldl_cons]
    exact ih _ (Inv_sweepNeighbor h)

theorem Inv_check_neighbor_timeouts {st : ServerState} (now : ℚ)
    (h : Inv st) : Inv (check_neighbor_timeouts st now) := by
  rw [check_neighbor_timeouts]
  exact Inv_foldl_sweep _ now st.neighbor_last_update st h

theorem dictGet?_append_of_some {α : Type} {l : List (ℕ × α)} (m : List (ℕ × α))
    {k : ℕ} {v : α} (h : dictGet? l k = some v) : dictGet? (l ++ m) k = some v := by
  rw [dictGet?_append, h]
  rfl

theorem initState_neighbors_lookup (t : TopologyData) (interval t0 : ℚ) (k : ℕ) :
    dictGet? (initState t interval t0).neighbors k =
      (dictGet? t.neighbors k).map (mkNeighborInfo t k) :=
  dictGet?_map_val (mkNeighborInfo t) t.neighbors k

theorem foldl_assign_hop (t0 : ℚ) :
    ∀ (l : List (ℕ × Cost)) (rt : List (ℕ × RoutingEntry)),
      (∀ p ∈ rt, ¬ p.2.next_hop_id = none) →
      ∀ p ∈ l.foldl (fun rt q => dictAssign rt q.1 ⟨q.1, some q.1, q.2, t0⟩) rt,
        ¬ p.2.next_hop_id = none := by
  intro l
  induction l with
  | nil => intro rt h; exact h
  | cons x s ih =>
    intro rt h
    rw [List.foldl_cons]
    refine ih _ ?_
    intro p hp
    rcases mem_dictAssign hp with rfl | hp'
    · simp
    · exact h p hp'

theorem foldl_assign_isSome_mono (t0 : ℚ) :
    ∀ (l : List (ℕ × Cost)) (rt : List (ℕ × RoutingEntry)) {k : ℕ},
      (dictGet? rt k).isSome = true →
      (dictGet? (l.foldl (fun rt q => dictAssign rt q.1 ⟨q.1, some q.1, q.2, t0⟩) rt)
        k).isSome = true := by
  intro l
  induction l with
  | nil => intro rt k h; exact h
  | cons x s ih =>
    intro rt k h
    rw [List.foldl_cons]
    exact ih _ ((dictAssign_isSome rt x.1 k _).mpr (Or.inr h))

theorem foldl_assign_isSome_key (t0 : ℚ) :
    ∀ (l : List (ℕ × Cost)) (rt : List (ℕ × RoutingEntry)) {x : ℕ × Cost}, x ∈ l →
      (dictGet? (l.foldl (fun rt q => dictAssign rt q.1 ⟨q.1, some q.1, q.2, t0⟩) rt)
        x.1).isSome = true := by
  intro l
  induction l with
  | nil => intro rt x h; simp at h
  | cons y s ih =>
    intro rt x h
    rw [List.foldl_cons]
    rcases List.mem_cons.mp h with rfl | h'
    · refine foldl_assign_isSome_mono t0 s _ ?_
      rw [dictGet?_dictAssign_self]
      rfl
    · exact ih _ h'

theorem foldl_extend_A (t0 : ℚ) :
    ∀ (l : List (ℕ × Addr)) (rt : List (ℕ × RoutingEntry)),
      (∀ p ∈ rt, p.2.next_hop_id = none → p.2.cost = Cost.inf) →
      ∀ p ∈ l.foldl (fun rt p =>
          match dictGet? rt p.1 with
          | some _ => rt
          | none => rt ++ [(p.1, ⟨p.1, none, Cost.inf, t0⟩)]) rt,
        p.2.next_hop_id = none → p.2.cost = Cost.inf := by
  intro l
  induction l with
  | nil => intro rt h; exact h
  | cons x s ih =>
    intro rt h
    rw [List.foldl_cons]
    cases hx : dictGet? rt x.1 with
    | some e =>
      simp only [hx]
      exact ih _ h
    | none =>
      simp only [hx]
      refine ih _ ?_
      intro p hp
      rcases List.mem_append.mp hp with hp' | hp'
      · exact h p hp'
      · have hpe : p = (x.1, ⟨x.1, none, Cost.inf, t0⟩) := by simpa using hp'
        rw [hpe]
        intro _
        rfl

theorem foldl_extend_P (t0 : ℚ) (nbs : List (ℕ × NeighborInfo)) :
    ∀ (l : List (ℕ × Addr)) (rt : List (ℕ × RoutingEntry)),
      (∀ n : ℕ, (dictGet? nbs n).isSome = true → (dictGet? rt n).isSome = true) →
      (∀ p ∈ rt, (dictGet? nbs p.1).isSome = true → ¬ p.2.next_hop_id = none) →
      (∀ n : ℕ, (dictGet? nbs n).isSome = true →
        (dictGet? (l.foldl (fun rt p =>
          match dictGet? rt p.1 with
          | some _ => rt
          | none => rt ++ [(p.1, ⟨p.1, none, Cost.inf, t0⟩)]) rt) n).isSome = true) ∧
      (∀ p ∈ l.foldl (fun rt p =>
          match dictGet? rt p.1 with
          | some _ => rt
          | none => rt ++ [(p.1, ⟨p.1, none, Cost.inf, t0⟩)]) rt,
        (dictGet? nbs p.1).isSome = true → ¬ p.2.next_hop_id = none) := by
  intro l
  induction l with
  | nil => intro rt h1 h2; exact ⟨h1, h2⟩
  | cons x s ih =>
    intro rt h1 h2
    rw [List.foldl_cons]
    cases hx : dictGet? rt x.1 with
    | some e =>
      simp only [hx]
      exact ih _ h1 h2
    | none =>
      simp only [hx]
      refine ih _ ?_ ?_
      · intro n hn
        rcases Option.isSome_iff_exists.mp (h1 n hn) with ⟨v, hv⟩
        rw [dictGet?_append_of_some _ hv]
        rfl
      · intro p hp
        rcases List.mem_append.mp hp with hp' | hp'
        · exact h2 p hp'
        · have hpe : p = (x.1, ⟨x.1, none, Cost.inf, t0⟩) := by simpa using hp'
          rw [hpe]
          intro hsome
          have := h1 _ hsome
          rw [hx] at this
          exact absurd this (by simp)

/-- The invariant holds for a freshly initialized server. -/
theorem Inv_initState (t : TopologyData) (interval t0 : ℚ) :
    Inv (initState t interval t0) := by
  have hbase0 : ∀ p ∈ dictAssign ([] : List (ℕ × RoutingEntry)) t.my_server_id
      ⟨t.my_server_id, some t.my_server_id, Cost.fin 0, t0⟩, ¬ p.2.next_hop_id = none := by
    intro p hp
    rcases mem_dictAssign hp with rfl | hp'
    · simp
    · simp at hp'
  have h1hop := foldl_assign_hop t0 t.neighbors _ hbase0
  have h1some : ∀ n : ℕ, (dictGet? t.neighbors n).isSome = true →
      (dictGet? (t.neighbors.foldl
        (fun rt p => dictAssign rt p.1 (⟨p.1, some p.1, p.2, t0⟩ : RoutingEntry))
        (dictAssign ([] : List (ℕ × RoutingEntry)) t.my_server_id
          ⟨t.my_server_id, some t.my_server_id, Cost.fin 0, t0⟩)) n).isSome = true := by
    intro n hn
    rcases Option.isSome_iff_exists.mp hn with ⟨c, hc⟩
    exact foldl_assign_isSome_key t0 t.neighbors _ (dictGet?_some_mem hc)
  have hnbsome : ∀ n : ℕ,
      (dictGet? (initState t interval t0).neighbors n).isSome = true →
      (dictGet? t.neighbors n).isSome = true := by
    intro n hn
    rw [initState_neighbors_lookup] at hn
    cases hc : dictGet? t.neighbors n with
    | none =>
      rw [hc] at hn
      exact absurd hn (by simp)
    | some c => rfl
  have hP := foldl_extend_P t0 (initState t interval t0).neighbors t.servers _
    (fun n hn => h1some n (hnbsome n hn))
    (fun p hp _ => h1hop p hp)
  have hA := foldl_extend_A t0 t.servers _ (fun p hp hnone => absurd hnone (h1hop p hp))
  refine ⟨hA, hP.2, ?_⟩
  intro q hq
  exact hP.1 q.1 (dictGet?_isSome_of_mem hq)

/-- The invariant holds in every reachable state. -/
theorem Inv_reachable {t : TopologyData} {interval t0 : ℚ} {st : ServerState}
    (h : Reachable t interval t0 st) : Inv st := by
  induction h with
  | init => exact Inv_initState t interval t0
  | step hr hs ih =>
    cases hs with
    | recv now data sender_addr => exact Inv_applyDatagram now data sender_addr ih
    | cmd_update now s1 s2 c => exact Inv_handle_update_command now s1 s2 c ih
    | cmd_disable now sid => exact Inv_handle_disable_command now sid ih
    | cmd_packets => exact ih
    | sweep now => exact Inv_check_neighbor_timeouts now ih

/-! ### Byte layout of the emitted datagram, record by record -/

theorem getD_drop (l : List ℕ) : ∀ (m i : ℕ), (l.drop m).getD i 0 = l.getD (m + i) 0 := by
  induction l with
  | nil => intro m i; simp
  | cons x t ih =>
    intro m i
    cases m with
    | zero => rw [List.drop_zero, Nat.zero_add]
    | succ m' =>
      rw [List.drop_succ_cons, ih m' i, show Nat.succ m' + i = (m' + i) + 1 by omega,
        List.getD_cons_succ]

theorem readBE32_drop (l : List ℕ) (m k : ℕ) :
    readBE32 (l.drop m) k = readBE32 l (m + k) := by
  unfold readBE32
  rw [getD_drop, getD_drop, getD_drop, getD_drop,
    show m + k + 1 = m + (k + 1) by omega, show m + k + 2 = m + (k + 2) by omega,
    show m + k + 3 = m + (k + 3) by omega]

theorem drop_length_add (l : List ℕ) : ∀ (m : List ℕ) (k : ℕ),
    (l ++ m).drop (l.length + k) = m.drop k := by
  induction l with
  | nil => intro m k; simp
  | cons x t ih =>
    intro m k
    rw [List.cons_append, show (x :: t).length + k = (t.length + k) + 1 by
      simp [Nat.add_comm, Nat.add_assoc, Nat.add_left_comm], List.drop_succ_cons, ih]

theorem encodeRecords_len20 {st : ServerState} :
    ∀ {rt : List (ℕ × RoutingEntry)} {recs : List (List ℕ)},
      encodeRecords st rt = some recs → ∀ r ∈ recs, r.length = 20 := by
  intro rt
  induction rt with
  | nil =>
    intro recs h r hr
    have h0 : (some [] : Option (List (List ℕ))) = some recs := h
    obtain rfl : recs = [] := (Option.some_inj.mp h0).symm
    simp at hr
  | cons p rt ih =>
    intro recs h r hr
    rw [encodeRecords] at h
    simp only [Option.bind_eq_bind, Option.bind_eq_some, Option.pure_def, Option.some_inj] at h
    obtain ⟨r0, hr0, rs, hrs, hrecs⟩ := h
    subst hrecs
    rcases List.mem_cons.mp hr with rfl | hr'
    · exact (encRecord_facts hr0).1
    · exact ih hrs r hr'

theorem encodeRecords_get {st : ServerState} :
    ∀ {rt : List (ℕ × RoutingEntry)} {recs : List (List ℕ)},
      encodeRecords st rt = some recs →
      recs.length = rt.length ∧
      ∀ i (hi : i < rt.length) (hri : i < recs.length),
        encRecord st (rt.get ⟨i, hi⟩) = some (recs.get ⟨i, hri⟩) := by
  intro rt
  induction rt with
  | nil =>
    intro recs h
    have h0 : (some [] : Option (List (List ℕ))) = some recs := h
    obtain rfl : recs = [] := (Option.some_inj.mp h0).symm
    exact ⟨rfl, fun i hi => absurd hi (by simp)⟩
  | cons p rt ih =>
    intro recs h
    rw [encodeRecords] at h
    simp only [Option.bind_eq_bind, Option.bind_eq_some, Option.pure_def, Option.some_inj] at h
    obtain ⟨r0, hr0, rs, hrs, hrecs⟩ := h
    subst hrecs
    obtain ⟨hlen, hget⟩ := ih hrs
    refine ⟨by simp [hlen], ?_⟩
    intro i hi hri
    cases i with
    | zero => exact hr0
    | succ j =>
      exact hget j (by simpa using hi) (by simpa using hri)

theorem flatten_drop : ∀ (recs : List (List ℕ)), (∀ r ∈ recs, r.length = 20) →
    ∀ i (hi : i < recs.length),
      ∃ tail, recs.flatten.drop (20 * i) = recs.get ⟨i, hi⟩ ++ tail := by
  intro recs
  induction recs with
  | nil => intro _ i hi; simp at hi
  | cons r rs ih =>
    intro h20 i hi
    cases i with
    | zero =>
      refine ⟨rs.flatten, ?_⟩
      simp
    | succ j =>
      have hr20 : r.length = 20 := h20 r (List.mem_cons_self _ _)
      have hj : j < rs.length := by simpa using hi
      obtain ⟨tail, htail⟩ := ih (fun q hq => h20 q (List.mem_cons_of_mem _ hq)) j hj
      refine ⟨tail, ?_⟩
      rw [show (r :: rs).flatten = r ++ rs.flatten by simp,
        show 20 * (j + 1) = r.length + 20 * j by omega, drop_length_add, htail]
      rfl

/-- Byte layout of a successfully built update datagram: a 12-byte header
carrying the 32-bit entry count, the 32-bit sender port and the four sender
IP octets, followed by one 20-byte record per routing-table entry in table
order, each holding (at offsets 8, 12, 16 within the record) four zero
padding bytes, the 32-bit destination id, and the 32-bit cost with
`float('inf')` written as the constant `INFINITY = 999999`. -/
theorem create_update_message_layout {st : ServerState} {msg : List ℕ}
    (h : create_update_message st = some msg) :
    msg.length = 12 + 20 * st.routing_table.length ∧
    readBE32 msg 0 = st.routing_table.length ∧
    readBE32 msg 4 = st.server_port ∧
    msg.getD 8 0 = st.server_ip.a ∧ msg.getD 9 0 = st.server_ip.b ∧
    msg.getD 10 0 = st.server_ip.c ∧ msg.getD 11 0 = st.server_ip.d ∧
    ∀ i (hi : i < st.routing_table.length),
      readBE32 msg (12 + 20 * i + 8) = 0 ∧
      readBE32 msg (12 + 20 * i + 12) = (st.routing_table.get ⟨i, hi⟩).1 ∧
      readBE32 msg (12 + 20 * i + 16) =
        (costWord (st.routing_table.get ⟨i, hi⟩).2.cost).toNat ∧
      ((st.routing_table.get ⟨i, hi⟩).2.cost = Cost.inf →
        readBE32 msg (12 + 20 * i + 16) = 999999) := by
  obtain ⟨recs, hrecs, hmsg, hNlt, hplt, ha, hb, hc, hd⟩ := create_update_message_eq h
  obtain ⟨recslen, recsget⟩ := encodeRecords_get hrecs
  have h20 := encodeRecords_len20 hrecs
  have hflatlen : recs.flatten.length = 20 * recs.length := by
    clear recsget recslen hrecs hmsg
    induction recs with
    | nil => rfl
    | cons r rs ih =>
      have := h20 r (List.mem_cons_self _ _)
      simp only [List.flatten_cons, List.length_append, this, List.length_cons]
      rw [ih (fun q hq => h20 q (List.mem_cons_of_mem _ hq))]
      omega
  have hprelen : (be32 st.routing_table.length ++ be32 st.server_port ++
      [st.server_ip.a, st.server_ip.b, st.server_ip.c, st.server_ip.d]).length = 12 := by
    simp [be32]
  obtain ⟨hN, hP, hIPa, hIPb, hIPc, hIPd⟩ :
      readBE32 msg 0 = st.routing_table.length ∧ readBE32 msg 4 = st.server_port ∧
      msg.getD 8 0 = st.server_ip.a ∧ msg.getD 9 0 = st.server_ip.b ∧
      msg.getD 10 0 = st.server_ip.c ∧ msg.getD 11 0 = st.server_ip.d := by
    have hmsg' : msg = be32 st.routing_table.length ++ (be32 st.server_port ++
        ([st.server_ip.a, st.server_ip.b, st.server_ip.c, st.server_ip.d] ++
          recs.flatten)) := by
      rw [hmsg]
      simp [List.append_assoc]
    have hmsg8 : msg = (be32 st.routing_table.length ++ be32 st.server_port) ++
        ([st.server_ip.a, st.server_ip.b, st.server_ip.c, st.server_ip.d] ++
          recs.flatten) := by
      rw [hmsg]
      simp [List.append_assoc]
    have hlen8 : (be32 st.routing_table.length ++ be32 st.server_port).length = 8 := by
      simp [be32]
    refine ⟨?_, ?_, ?_, ?_, ?_, ?_⟩
    · rw [hmsg', readBE32_be32_append _ hNlt]
    · rw [hmsg', readBE32_shift _ _ 4 0 (by simp [be32]), readBE32_be32_append _ hplt]
    · rw [hmsg8, show (8 : ℕ) =
        (be32 st.routing_table.length ++ be32 st.server_port).length + 0 by rw [hlen8],
        getD_append_right]
      rfl
    · rw [hmsg8, show (9 : ℕ) =
        (be32 st.routing_table.length ++ be32 st.server_port).length + 1 by rw [hlen8],
        getD_append_right]
      rfl
    · rw [hmsg8, show (10 : ℕ) =
        (be32 st.routing_table.length ++ be32 st.server_port).length + 2 by rw [hlen8],
        getD_append_right]
      rfl
    · rw [hmsg8, show (11 : ℕ) =
        (be32 st.routing_table.length ++ be32 st.server_port).length + 3 by rw [hlen8],
        getD_append_right]
      rfl
  refine ⟨?_, hN, hP, hIPa, hIPb, hIPc, hIPd, ?_⟩
  · rw [hmsg, List.length_append, hprelen, hflatlen, recslen]
  · intro i hi
    have hri : i < recs.length := by rw [recslen]; exact hi
    obtain ⟨tail, htail⟩ := flatten_drop recs h20 i hri
    have hdrop : msg.drop (12 + 20 * i) = recs.get ⟨i, hri⟩ ++ tail := by
      rw [hmsg, show 12 + 20 * i = (be32 st.routing_table.length ++ be32 st.server_port ++
        [st.server_ip.a, st.server_ip.b, st.server_ip.c, st.server_ip.d]).length + 20 * i
        by rw [hprelen], drop_length_add, htail]
    have hread : ∀ k : ℕ, k + 4 ≤ 20 →
        readBE32 msg (12 + 20 * i + k) = readBE32 (recs.get ⟨i, hri⟩) k := by
      intro k hk
      rw [← readBE32_drop msg (12 + 20 * i) k, hdrop, readBE32_append_left _ _ (by
        rw [h20 _ (recs.get_mem _ _)]
        exact hk)]
    obtain ⟨hl20, hpad, hid, hcost, hc0, hclt, hidlt⟩ :=
      encRecord_facts (recsget i hi hri)
    refine ⟨?_, ?_, ?_, ?_⟩
    · rw [hread 8 (by omega), hpad]
    · rw [hread 12 (by omega), hid]
    · rw [hread 16 (by omega), hcost]
    · intro hinf
      rw [hread 16 (by omega), hcost, hinf]
      rfl

/-! ### Remaining characterizations used by the claim theorems -/

theorem parse_counter_irrelevant (st : ServerState) (x : ℕ) (data : List ℕ) (sa : Addr) :
    parse_update_message { st with packets_received := x } data sa =
      parse_update_message st data sa := rfl

theorem update_routing_table_fields (st : ServerState) (now : ℚ) (s : ℕ)
    (es : List (ℕ × Cost)) :
    (update_routing_table st now s es).packets_received = st.packets_received ∧
    (update_routing_table st now s es).neighbors = st.neighbors ∧
    (update_routing_table st now s es).neighbor_last_update = st.neighbor_last_update := by
  rw [update_routing_table]
  cases dictGet? st.neighbors s with
  | none => exact ⟨rfl, rfl, rfl⟩
  | some nb => exact ⟨rfl, rfl, rfl⟩

theorem Cost_ltb_inf {c : Cost} (h : ¬ c = Cost.inf) : c.ltb Cost.inf = true := by
  cases c with
  | fin v => rfl
  | inf => exact absurd rfl h

theorem foldl_relax_self_frame (sid s : ℕ) (c : Cost) (now : ℚ) :
    ∀ (es : List (ℕ × Cost)) (rt : List (ℕ × RoutingEntry)),
      dictGet? (es.foldl (relaxEntry sid s c now) rt) sid = dictGet? rt sid := by
  intro es
  induction es with
  | nil => intro rt; rfl
  | cons e t ih =>
    intro rt
    rw [List.foldl_cons, ih]
    by_cases he : e.1 = sid
    · rw [relaxEntry_self he]
    · exact relaxEntry_frame sid s c now rt e (fun hc => he hc.symm)

/-- The Bellman-Ford relaxation, destination by destination: for a known
sender `s` with registered link cost `c_us = nb.cost`, each advertised pair
`(d, c_sv)` with `d` distinct from self is applied to `routes[d]` exactly as
follows (writing `cand = c_us + c_sv` with absorbing infinity): improvement
adopts `(next_hop = s, cost = cand)`, a forced refresh (current next hop `s`,
`cand ≠` current cost) rewrites only the cost, a tie or a worse candidate via
another hop changes nothing; a previously unknown destination is inserted
with next hop `s` at a finite candidate and with no next hop at an infinite
one.  Destinations not advertised, and the entry for self, are untouched. -/
theorem update_routing_table_spec {st : ServerState} {now : ℚ} {s : ℕ} {nb : NeighborInfo}
    (es : List (ℕ × Cost)) (hnb : dictGet? st.neighbors s = some nb)
    (hnodup : (es.map Prod.fst).Nodup) :
    (∀ d cv, (d, cv) ∈ es → ¬ d = st.server_id →
      ((∀ cur, dictGet? st.routing_table d = some cur →
        ((nb.cost.add cv).ltb cur.cost = true →
          dictGet? (update_routing_table st now s es).routing_table d =
            some { cur with next_hop_id := some s, cost := nb.cost.add cv, last_update_time := now }) ∧
        ((nb.cost.add cv).ltb cur.cost = false → cur.next_hop_id = some s →
          ¬ nb.cost.add cv = cur.cost →
          dictGet? (update_routing_table st now s es).routing_table d =
            some { cur with cost := nb.cost.add cv, last_update_time := now }) ∧
        ((nb.cost.add cv).ltb cur.cost = false →
          (¬ cur.next_hop_id = some s ∨ nb.cost.add cv = cur.cost) →
          dictGet? (update_routing_table st now s es).routing_table d = some cur)) ∧
      (dictGet? st.routing_table d = none →
        (¬ nb.cost.add cv = Cost.inf →
          dictGet? (update_routing_table st now s es).routing_table d =
            some ⟨d, some s, nb.cost.add cv, now⟩) ∧
        (nb.cost.add cv = Cost.inf →
          dictGet? (update_routing_table st now s es).routing_table d =
            some ⟨d, none, Cost.inf, now⟩)))) ∧
    (∀ d, d ∉ es.map Prod.fst →
      dictGet? (update_routing_table st now s es).routing_table d =
        dictGet? st.routing_table d) ∧
    dictGet? (update_routing_table st now s es).routing_table st.server_id =
      dictGet? st.routing_table st.server_id := by
  have hrt : (update_routing_table st now s es).routing_table =
      es.foldl (relaxEntry st.server_id s nb.cost now) st.routing_table := by
    rw [update_routing_table, hnb]
  have hlook : ∀ d cv, (d, cv) ∈ es → ¬ d = st.server_id →
      dictGet? (update_routing_table st now s es).routing_table d =
        some (relaxAt s nb.cost now (d, cv) (dictGet? st.routing_table d)) := by
    intro d cv hmem hds
    rw [hrt]
    exact foldl_relax_lookup st.server_id s nb.cost now es st.routing_table hnodup hmem hds
  refine ⟨?_, ?_, ?_⟩
  · intro d cv hmem hds
    have hl := hlook d cv hmem hds
    constructor
    · intro cur hcur
      rw [hcur] at hl
      refine ⟨?_, ?_, ?_⟩
      · intro hlt
        rw [hl, relaxAt]
        simp only [Option.getD_some]
        rw [if_pos hlt]
      · intro hlt hhop hne
        rw [hl, relaxAt]
        simp only [Option.getD_some]
        rw [if_neg (by rw [hlt]; exact Bool.false_ne_true), if_pos ⟨hhop, hne⟩]
      · intro hlt hother
        rw [hl, relaxAt]
        simp only [Option.getD_some]
        rw [if_neg (by rw [hlt]; exact Bool.false_ne_true), if_neg (by
          rintro ⟨h1, h2⟩
          rcases hother with h3 | h3
          · exact h3 h1
          · exact h2 h3)]
    · intro hcur
      rw [hcur] at hl
      constructor
      · intro hne
        rw [hl, relaxAt]
        simp only [Option.getD_none]
        rw [if_pos (Cost_ltb_inf hne)]
      · intro hinf
        rw [hl, relaxAt]
        simp only [Option.getD_none]
        rw [if_neg (by rw [hinf]; exact Bool.false_ne_true), if_neg (by
          rintro ⟨h1, _⟩
          exact Option.noConfusion h1)]
  · intro d hd
    rw [hrt]
    exact foldl_relax_frame st.server_id s nb.cost now es st.routing_table hd
  · rw [hrt]
    exact foldl_relax_self_frame st.server_id s nb.cost now es st.routing_table

theorem map_sweep_next_hops (n : ℕ) (now : ℚ) (rt : List (ℕ × RoutingEntry)) (d : ℕ) :
    (dictGet? (rt.map (fun q => (q.1, sweepRoute n now q.2))) d).map
        RoutingEntry.next_hop_id =
      (dictGet? rt d).map RoutingEntry.next_hop_id := by
  rw [dictGet?_map_val (fun _ e => sweepRoute n now e)]
  cases dictGet? rt d with
  | none => rfl
  | some e =>
    simp only [Option.map_some']
    rw [sweepRoute_next_hop]

theorem sweepNeighbor_next_hops {θ now : ℚ} {st : ServerState} {p : ℕ × ℚ} (d : ℕ) :
    (dictGet? (sweepNeighbor θ now st p).routing_table d).map RoutingEntry.next_hop_id =
      (dictGet? st.routing_table d).map RoutingEntry.next_hop_id := by
  by_cases ht : θ < now - p.2
  · cases hnb : dictGet? st.neighbors p.1 with
    | none => rw [sweepNeighbor_missing hnb]
    | some nb =>
      by_cases hc : nb.cost = Cost.inf
      · rw [sweepNeighbor_inf hnb hc]
      · rw [sweepNeighbor_fire ht hnb hc]
        exact map_sweep_next_hops p.1 now st.routing_table d
  · rw [sweepNeighbor_not_timed ht]

/-- The timeout sweep never rewrites any next-hop field. -/
theorem check_neighbor_timeouts_next_hops (st : ServerState) (now : ℚ) (d : ℕ) :
    (dictGet? (check_neighbor_timeouts st now).routing_table d).map
        RoutingEntry.next_hop_id =
      (dictGet? st.routing_table d).map RoutingEntry.next_hop_id := by
  rw [check_neighbor_timeouts]
  have hgen : ∀ (θ : ℚ) (L : List (ℕ × ℚ)) (st : ServerState),
      (dictGet? ((L.foldl (sweepNeighbor θ now) st)).routing_table d).map
        RoutingEntry.next_hop_id =
      (dictGet? st.routing_table d).map RoutingEntry.next_hop_id := by
    intro θ L
    induction L with
    | nil => intro st; rfl
    | cons p t ih =>
      intro st
      rw [List.foldl_cons, ih, sweepNeighbor_next_hops d]
  exact hgen _ st.neighbor_last_update st

/-! ### Claim C1 -/

/-- C1 counterexample: the claim's layout (16-bit count/port/id/cost fields,
12-byte records, `0xFFFF` for infinity) is not what the encoder emits: a
one-entry table yields a 32-byte datagram, not `8 + 12·1 = 20` bytes, and an
infinite cost is written as `999999`, not `0xFFFF`. -/
theorem C1_counterexample :
    (create_update_message exSt1).map List.length = some 32 ∧
    ¬ (32 : ℕ) = 8 + 12 * exSt1.routing_table.length ∧
    (create_update_message exSt1).map (fun m => readBE32 m 28) = some 999999 ∧
    ¬ (999999 : ℕ) = 0xFFFF := by
  exact ⟨by decide, by decide, by decide, by decide⟩

/-- C1 (corrected): the encoder emits one datagram made of a 12-byte header
(32-bit entry count, 32-bit sender port, the sender's 4 IP octets) followed
by one 20-byte record per routing-table entry in table order — the self
entry included, as the whole table is emitted — each record carrying 4 zero
padding bytes at offset 8, the 32-bit destination id at offset 12 and the
32-bit cost at offset 16, with an infinite cost encoded as the value
`999999`. -/
theorem C1_encoder_layout {st : ServerState} {msg : List ℕ}
    (h : create_update_message st = some msg) :
    msg.length = 12 + 20 * st.routing_table.length ∧
    readBE32 msg 0 = st.routing_table.length ∧
    readBE32 msg 4 = st.server_port ∧
    msg.getD 8 0 = st.server_ip.a ∧ msg.getD 9 0 = st.server_ip.b ∧
    msg.getD 10 0 = st.server_ip.c ∧ msg.getD 11 0 = st.server_ip.d ∧
    ∀ i (hi : i < st.routing_table.length),
      readBE32 msg (12 + 20 * i + 8) = 0 ∧
      readBE32 msg (12 + 20 * i + 12) = (st.routing_table.get ⟨i, hi⟩).1 ∧
      readBE32 msg (12 + 20 * i + 16) =
        (costWord (st.routing_table.get ⟨i, hi⟩).2.cost).toNat ∧
      ((st.routing_table.get ⟨i, hi⟩).2.cost = Cost.inf →
        readBE32 msg (12 + 20 * i + 16) = 999999) :=
  create_update_message_layout h

/-- C1 witness: the layout theorem instantiated on the example server. -/
theorem C1_witness :
    create_update_message exSt = some exMsg ∧
    exMsg.length = 12 + 20 * exSt.routing_table.length ∧
    readBE32 exMsg 0 = exSt.routing_table.length := by
  have h : create_update_message exSt = some exMsg := by decide
  have hl := C1_encoder_layout h
  exact ⟨h, hl.1, hl.2.1⟩

/-! ### Claim C2 -/

/-- C2 counterexample: an empty (undecodable) datagram still increments the
packet counter, refuting "incremented if and only if the datagram decodes
successfully". -/
theorem C2_counterexample :
    parse_update_message exSt [] ⟨⟨10, 0, 0, 2⟩, 2001⟩ = none ∧
    (applyDatagram exSt 0 [] ⟨⟨10, 0, 0, 2⟩, 2001⟩).packets_received =
      exSt.packets_received + 1 := by
  exact ⟨by decide, by decide⟩

/-- C2 (corrected): the receive loop increments the packet counter for every
received datagram, before and regardless of decoding; a datagram that fails
decoding (short buffer, malformed, or unknown sender) leaves the routing
table, the neighbor registry and the last-heard map unchanged. -/
theorem C2_receiver_counts_all (st : ServerState) (now : ℚ) (data : List ℕ) (sa : Addr) :
    (applyDatagram st now data sa).packets_received = st.packets_received + 1 ∧
    (parse_update_message st data sa = none →
      (applyDatagram st now data sa).routing_table = st.routing_table ∧
      (applyDatagram st now data sa).neighbors = st.neighbors ∧
      (applyDatagram st now data sa).neighbor_last_update = st.neighbor_last_update) := by
  constructor
  · rw [applyDatagram]
    cases hp : parse_update_message { st with packets_received := st.packets_received + 1 }
        data sa with
    | none => rfl
    | some pr =>
      obtain ⟨sid, es⟩ := pr
      simp only
      cases hlu : dictGet? ({ st with packets_received := st.packets_received + 1 } :
          ServerState).neighbor_last_update sid with
      | none => exact (update_routing_table_fields _ now sid es).1
      | some x => exact (update_routing_table_fields _ now sid es).1
  · intro hnone
    rw [applyDatagram, parse_counter_irrelevant st (st.packets_received + 1) data sa, hnone]
    exact ⟨rfl, rfl, rfl⟩

/-- C2 witness: the amended theorem instantiated on an undecodable datagram. -/
theorem C2_witness :
    parse_update_message exSt [] ⟨⟨10, 0, 0, 2⟩, 2001⟩ = none ∧
    (applyDatagram exSt 0 [] ⟨⟨10, 0, 0, 2⟩, 2001⟩).routing_table = exSt.routing_table :=
  ⟨by decide, ((C2_receiver_counts_all exSt 0 [] ⟨⟨10, 0, 0, 2⟩, 2001⟩).2 (by decide)).1⟩

/-! ### Claim C3 -/

/-- C3 counterexample: after the reachable operator command `disable 2`, the
route to 2 has infinite cost yet keeps next hop 2, refuting the claimed
equivalence `cost = ∞ ⇔ next_hop = NONE`. -/
theorem C3_counterexample :
    Reachable exTop 5 0 exStInf ∧
    dictGet? exStInf.routing_table 2 = some ⟨2, some 2, Cost.inf, 1⟩ ∧
    ¬ (2 : ℕ) = exStInf.server_id ∧
    ¬ ((⟨2, some 2, Cost.inf, 1⟩ : RoutingEntry)).next_hop_id = none := by
  refine ⟨Reachable.step Reachable.init (Step.cmd_disable (initState exTop 5 0) 1 2),
    by decide, by decide, by decide⟩

/-- C3 (corrected): in every state reachable by received announcements,
operator commands and timeout sweeps, only one direction of the claimed
equivalence holds: a routing entry (for a destination other than self) with
no next hop carries infinite cost.  The converse fails (see the
counterexample): invalidated routes keep their stale next hop. -/
theorem C3_reachable_no_hop_infinite {t : TopologyData} {interval t0 : ℚ}
    {st : ServerState} (h : Reachable t interval t0 st) :
    ∀ d e, dictGet? st.routing_table d = some e → ¬ d = st.server_id →
      e.next_hop_id = none → e.cost = Cost.inf := by
  intro d e hd _ hnone
  exact (Inv_reachable h).1 (d, e) (dictGet?_some_mem hd) hnone

/-- C3 witness: the invariant instantiated at the initial state's entry for
the non-adjacent server 4. -/
theorem C3_witness :
    dictGet? (initState exTop 5 0).routing_table 4 = some ⟨4, none, Cost.inf, 0⟩ ∧
    (⟨4, none, Cost.inf, 0⟩ : RoutingEntry).cost = Cost.inf :=
  ⟨by decide, C3_reachable_no_hop_infinite (@Reachable.init exTop 5 0) 4 ⟨4, none, Cost.inf, 0⟩
    (by decide) (by decide) rfl⟩

/-! ### Claim C4 -/

/-- C4 counterexample: a previously unknown destination advertised with an
infinite candidate cost is inserted with `next_hop = NONE`, not with next
hop `s` as the claim states. -/
theorem C4_counterexample :
    dictGet? exSt.routing_table 9 = none ∧
    dictGet? (update_routing_table exSt 7 2 [(9, Cost.inf)]).routing_table 9 =
      some ⟨9, none, Cost.inf, 7⟩ ∧
    ¬ ((⟨9, none, Cost.inf, 7⟩ : RoutingEntry)).next_hop_id = some 2 := by
  exact ⟨by decide, by decide, by decide⟩

/-- C4 (corrected): the Bellman-Ford update engine, for an announcement from
registered neighbor `s` with link cost `c_us = nb.cost` and advertised
entries with pairwise-distinct destinations: for each advertised `(d, c_sv)`
with `d ≠ self` and `cand = c_us + c_sv` (infinity-absorbing), an existing
entry is improved to `(next_hop = s, cost = cand)` exactly when
`cand < cur.cost`, force-refreshed to cost `cand` (next hop kept) when
`cur.next_hop = s` and `cand ≠ cur.cost`, and otherwise left unchanged (in
particular a tie never replaces the next hop); a previously unknown
destination is inserted with next hop `s` at a finite candidate but with no
next hop at an infinite candidate; unadvertised destinations and the entry
for self are never modified. -/
theorem C4_update_engine {st : ServerState} {now : ℚ} {s : ℕ} {nb : NeighborInfo}
    (es : List (ℕ × Cost)) (hnb : dictGet? st.neighbors s = some nb)
    (hnodup : (es.map Prod.fst).Nodup) :
    (∀ d cv, (d, cv) ∈ es → ¬ d = st.server_id →
      ((∀ cur, dictGet? st.routing_table d = some cur →
        ((nb.cost.add cv).ltb cur.cost = true →
          dictGet? (update_routing_table st now s es).routing_table d =
            some { cur with next_hop_id := some s, cost := nb.cost.add cv, last_update_time := now }) ∧
        ((nb.cost.add cv).ltb cur.cost = false → cur.next_hop_id = some s →
          ¬ nb.cost.add cv = cur.cost →
          dictGet? (update_routing_table st now s es).routing_table d =
            some { cur with cost := nb.cost.add cv, last_update_time := now }) ∧
        ((nb.cost.add cv).ltb cur.cost = false →
          (¬ cur.next_hop_id = some s ∨ nb.cost.add cv = cur.cost) →
          dictGet? (update_routing_table st now s es).routing_table d = some cur)) ∧
      (dictGet? st.routing_table d = none →
        (¬ nb.cost.add cv = Cost.inf →
          dictGet? (update_routing_table st now s es).routing_table d =
            some ⟨d, some s, nb.cost.add cv, now⟩) ∧
        (nb.cost.add cv = Cost.inf →
          dictGet? (update_routing_table st now s es).routing_table d =
            some ⟨d, none, Cost.inf, now⟩)))) ∧
    (∀ d, d ∉ es.map Prod.fst →
      dictGet? (update_routing_table st now s es).routing_table d =
        dictGet? st.routing_table d) ∧
    dictGet? (update_routing_table st now s es).routing_table st.server_id =
      dictGet? st.routing_table st.server_id :=
  update_routing_table_spec es hnb hnodup

/-- C4 witness: an improvement step on the example server — neighbor 2
advertises destination 3 at cost 1, and the route to 3 becomes
`(next_hop 2, cost 6)`. -/
theorem C4_witness :
    dictGet? (update_routing_table exSt 7 2 [(3, Cost.fin 1)]).routing_table 3 =
      some ⟨3, some 2, Cost.fin 6, 7⟩ := by
  have h := ((@C4_update_engine exSt 7 2 ⟨⟨10, 0, 0, 2⟩, 2001, Cost.fin 5⟩ [(3, Cost.fin 1)]
      (by decide) (by decide)).1 3 (Cost.fin 1) (by decide) (by decide)).1
      ⟨3, some 3, Cost.fin 8, 0⟩ (by decide)
  have h2 := h.1 (by with_unfolding_all decide)
  rw [h2]
  with_unfolding_all decide

/-! ### Claim C5 -/

/-- C5 counterexample: two non-negative tables that fail to round-trip — one
with a finite cost at `999999`, which the receiver decodes as infinity, and
one (obtained by the operator command `update 1 2 2.5`) with the fractional
cost `5/2`, which `int()` truncates to `2` at emission. -/
theorem C5_counterexample :
    ((create_update_message exSt999).bind
        (fun m => parse_update_message exSt999 m ⟨exSt999.server_ip, exSt999.server_port⟩) =
      some (1, [(1, Cost.fin 0), (2, Cost.inf)]) ∧
    ¬ ([(1, Cost.fin 0), (2, Cost.inf)] : List (ℕ × Cost)) =
      exSt999.routing_table.map (fun p => (p.1, p.2.cost))) ∧
    (dictGet? exStHalf.routing_table 2 = some ⟨2, some 2, Cost.fin (5/2), 0⟩ ∧
    (create_update_message exStHalf).bind
        (fun m => parse_update_message exStHalf m ⟨exStHalf.server_ip, exStHalf.server_port⟩) =
      some (1, [(1, Cost.fin 0), (2, Cost.fin 2), (3, Cost.fin 8), (4, Cost.inf)]) ∧
    ¬ ([(1, Cost.fin 0), (2, Cost.fin 2), (3, Cost.fin 8), (4, Cost.inf)] :
        List (ℕ × Cost)) =
      exStHalf.routing_table.map (fun p => (p.1, p.2.cost))) := by
  refine ⟨⟨?_, ?_⟩, ?_, ?_, ?_⟩ <;> with_unfolding_all decide

/-- C5 (corrected): the codec round-trip holds once every cost is
integer-valued (the `int()` truncation at emission is then the identity) with
every finite value below the wire sentinel `999999`: decoding the encoded
snapshot recovers the local id and the exact destination-to-cost map (keys
assumed distinct, and the local address resolving to the local id in the peer
directory). -/
theorem C5_codec_round_trip {st : ServerState} {msg : List ℕ}
    (henc : create_update_message st = some msg)
    (hkeys : (st.routing_table.map Prod.fst).Nodup)
    (hself : findServer st.all_servers st.server_ip st.server_port = some st.server_id)
    (hint : ∀ p ∈ st.routing_table, (p.2.cost).isInt = true)
    (hfin : ∀ p ∈ st.routing_table, costWord p.2.cost < 999999 ∨ p.2.cost = Cost.inf) :
    parse_update_message st msg ⟨st.server_ip, st.server_port⟩ =
      some (st.server_id, st.routing_table.map (fun p => (p.1, p.2.cost))) :=
  parse_of_create henc hkeys hself hint hfin

/-- C5 witness: the round trip on the example server's own announcement. -/
theorem C5_witness :
    create_update_message exSt = some exMsg ∧
    parse_update_message exSt exMsg ⟨exSt.server_ip, exSt.server_port⟩ =
      some (exSt.server_id, exSt.routing_table.map (fun p => (p.1, p.2.cost))) :=
  ⟨by with_unfolding_all decide,
    C5_codec_round_trip (by with_unfolding_all decide) (by decide) (by decide)
      (by with_unfolding_all decide) (by with_unfolding_all decide)⟩

/-! ### Claim C6 -/

/-- C6 counterexample: an announcement from a registered neighbor whose link
cost is infinite is still processed — here it inserts a new unreachable
routing entry, so the table is not left unchanged. -/
theorem C6_counterexample :
    dictGet? exStInf.neighbors 2 = some ⟨⟨10, 0, 0, 2⟩, 2001, Cost.inf⟩ ∧
    dictGet? exStInf.routing_table 9 = none ∧
    dictGet? (update_routing_table exStInf 3 2 [(9, Cost.fin 1)]).routing_table 9 =
      some ⟨9, none, Cost.inf, 3⟩ := by
  exact ⟨by decide, by decide, by decide⟩

/-- C6 (corrected): only an announcement whose sender id is not in the
neighbor registry leaves the state (routing table included) completely
unchanged; the update engine performs no check on the sender's link cost, so
announcements from an infinite-cost neighbor are still applied (see the
counterexample). -/
theorem C6_unknown_sender_ignored {st : ServerState} {now : ℚ} {s : ℕ}
    {es : List (ℕ × Cost)} (h : dictGet? st.neighbors s = none) :
    update_routing_table st now s es = st :=
  update_routing_table_unknown_sender h

/-- C6 witness: an announcement from the unregistered sender 9 changes
nothing. -/
theorem C6_witness :
    dictGet? exSt.neighbors 9 = none ∧
    update_routing_table exSt 0 9 [(3, Cost.fin 1)] = exSt :=
  ⟨by decide, C6_unknown_sender_ignored (by decide)⟩

/-! ### Claim C7 -/

/-- C7 counterexample: `disable 2` sets the route to 2 to infinite cost but
keeps `next_hop = 2` (never `NONE`); and `update 1 2 inf` does not touch the
route to 3 through 2 at all, which keeps its finite cost 6. -/
theorem C7_counterexample :
    dictGet? (handle_disable_command exSt 1 2).2.routing_table 2 =
      some ⟨2, some 2, Cost.inf, 1⟩ ∧
    ¬ ((⟨2, some 2, Cost.inf, 1⟩ : RoutingEntry)).next_hop_id = none ∧
    dictGet? exStVia2.routing_table 3 = some ⟨3, some 2, Cost.fin 6, 7⟩ ∧
    dictGet? (handle_update_command exStVia2 8 1 2 Cost.inf).2.routing_table 3 =
      some ⟨3, some 2, Cost.fin 6, 7⟩ := by
  exact ⟨by decide, by decide, by with_unfolding_all decide, by with_unfolding_all decide⟩

/-- C7 (corrected): when neighbor `n`'s link cost becomes infinite by
`disable` or by timeout, every route whose next hop is `n` gets infinite
cost in the same operation but its next-hop field is left exactly as it was
(never set to `NONE`); the operator `update` command with cost `inf`
performs no such sweep — it changes no routing entry other than `n`'s own
direct entry. -/
theorem C7_link_infinity {st : ServerState} {now : ℚ} {n : ℕ} {nb : NeighborInfo}
    (hnb : dictGet? st.neighbors n = some nb) :
    (dictGet? (handle_disable_command st now n).2.neighbors n =
        some { nb with cost := Cost.inf } ∧
      RouteInfInv n (handle_disable_command st now n).2.routing_table ∧
      ∀ d, (dictGet? (handle_disable_command st now n).2.routing_table d).map
          RoutingEntry.next_hop_id =
        (dictGet? st.routing_table d).map RoutingEntry.next_hop_id) ∧
    (∀ s1 s2, ¬ (s1 ≠ st.server_id ∧ s2 ≠ st.server_id) →
      (if s1 = st.server_id then s2 else s1) = n →
      ∀ d, ¬ d = n →
        dictGet? (handle_update_command st now s1 s2 Cost.inf).2.routing_table d =
          dictGet? st.routing_table d) ∧
    (∀ last, (st.neighbor_last_update.map Prod.fst).Nodup →
      (n, last) ∈ st.neighbor_last_update → ¬ nb.cost = Cost.inf →
      3 * st.update_interval < now - last →
      RouteInfInv n (check_neighbor_timeouts st now).routing_table ∧
      ∀ d, (dictGet? (check_neighbor_timeouts st now).routing_table d).map
          RoutingEntry.next_hop_id =
        (dictGet? st.routing_table d).map RoutingEntry.next_hop_id) := by
  refine ⟨?_, ?_, ?_⟩
  · obtain ⟨_, h2, h3, h4⟩ := handle_disable_command_spec hnb
    exact ⟨h2, h3, h4⟩
  · intro s1 s2 hs hn d hd
    have hnb' : dictGet? st.neighbors (if s1 = st.server_id then s2 else s1) = some nb := by
      rw [hn]
      exact hnb
    exact (handle_update_command_spec hs hnb').2.2.2 d (by rw [hn]; exact hd)
  · intro last hkeys hmem hfin ht
    refine ⟨((check_neighbor_timeouts_spec st now n last nb hkeys hmem hnb hfin).1 ht).2, ?_⟩
    intro d
    exact check_neighbor_timeouts_next_hops st now d

/-- C7 witness: the disable part instantiated on the example server. -/
theorem C7_witness :
    dictGet? (handle_disable_command exSt 1 2).2.neighbors 2 =
      some ⟨⟨10, 0, 0, 2⟩, 2001, Cost.inf⟩ :=
  (C7_link_infinity
    (show dictGet? exSt.neighbors 2 = some ⟨⟨10, 0, 0, 2⟩, 2001, Cost.fin 5⟩ by decide)).1.1

/-! ### Claim C8 -/

/-- C8 (confirmed): on a sweep at time `now`, a neighbor with a finite link
cost whose last announcement is strictly older than `3 ·` the update
interval gets link cost infinity, and every route whose next hop is that
neighbor ends with infinite cost; a neighbor heard within `3 · T` keeps its
registry entry unchanged. -/
theorem C8_timeout_sweep (st : ServerState) (now : ℚ) (n : ℕ) (last : ℚ)
    (nb : NeighborInfo)
    (hkeys : (st.neighbor_last_update.map Prod.fst).Nodup)
    (hmem : (n, last) ∈ st.neighbor_last_update)
    (hnb : dictGet? st.neighbors n = some nb)
    (hfin : ¬ nb.cost = Cost.inf) :
    (3 * st.update_interval < now - last →
      dictGet? (check_neighbor_timeouts st now).neighbors n =
        some { nb with cost := Cost.inf } ∧
      RouteInfInv n (check_neighbor_timeouts st now).routing_table) ∧
    (¬ 3 * st.update_interval < now - last →
      dictGet? (check_neighbor_timeouts st now).neighbors n = some nb) :=
  check_neighbor_timeouts_spec st now n last nb hkeys hmem hnb hfin

/-- C8 witness: with interval 5, a sweep at time 100 (last heard 0) kills
neighbor 2, while a sweep at time 14 leaves it untouched. -/
theorem C8_witness :
    dictGet? (check_neighbor_timeouts exSt 100).neighbors 2 =
      some ⟨⟨10, 0, 0, 2⟩, 2001, Cost.inf⟩ ∧
    dictGet? (check_neighbor_timeouts exSt 14).neighbors 2 =
      some ⟨⟨10, 0, 0, 2⟩, 2001, Cost.fin 5⟩ :=
  ⟨((C8_timeout_sweep exSt 100 2 0 ⟨⟨10, 0, 0, 2⟩, 2001, Cost.fin 5⟩
      (by decide) (by decide) (by decide) (by decide)).1
      (by show (3 : ℚ) * 5 < 100 - 0; norm_num)).1,
    (C8_timeout_sweep exSt 14 2 0 ⟨⟨10, 0, 0, 2⟩, 2001, Cost.fin 5⟩
      (by decide) (by decide) (by decide) (by decide)).2
      (by show ¬ (3 : ℚ) * 5 < 14 - 0; norm_num)⟩

/-! ### Claim C9 -/

/-- C9 counterexample: the running server's update handler accepts a
negative cost: `update 1 2 -5` reports success and records link cost `-5`. -/
theorem C9_counterexample :
    (handle_update_command exSt 0 1 2 (Cost.fin (-5))).1 = true ∧
    dictGet? (handle_update_command exSt 0 1 2 (Cost.fin (-5))).2.neighbors 2 =
      some ⟨⟨10, 0, 0, 2⟩, 2001, Cost.fin (-5)⟩ ∧
    dictGet? (handle_update_command exSt 0 1 2 (Cost.fin (-5))).2.routing_table 2 =
      some ⟨2, some 2, Cost.fin (-5), 0⟩ := by
  exact ⟨by decide, by decide, by decide⟩

/-- C9 (corrected): the update handler wired into the running server
(`DVServer.handle_update_command`) performs no negativity check — a negative
cost passing its other checks is applied to the registry (and reported as
success) — whereas the repository's second, unwired command layer
(`CommandHandler.handle_update` in `commands.py`) rejects a negative cost
before any mutation, leaving the state unchanged. -/
theorem C9_negative_cost {st : ServerState} {now : ℚ} {s1 s2 : ℕ} {c : ℚ}
    {nb : NeighborInfo} (hneg : c < 0)
    (hs : ¬ (s1 ≠ st.server_id ∧ s2 ≠ st.server_id))
    (hnb : dictGet? st.neighbors (if s1 = st.server_id then s2 else s1) = some nb) :
    (handle_update_command st now s1 s2 (Cost.fin c)).1 = true ∧
    dictGet? (handle_update_command st now s1 s2 (Cost.fin c)).2.neighbors
      (if s1 = st.server_id then s2 else s1) = some { nb with cost := Cost.fin c } ∧
    (cmdhandler_handle_update st now s1 s2 (Cost.fin c)).1 = false ∧
    (cmdhandler_handle_update st now s1 s2 (Cost.fin c)).2 = st := by
  have hspec := @handle_update_command_spec st now s1 s2 (Cost.fin c) nb hs hnb
  have hcond : (match Cost.fin c with
      | Cost.fin v => decide (v < 0)
      | Cost.inf => false) = true := by simpa using hneg
  refine ⟨hspec.1, hspec.2.1, ?_, ?_⟩
  · rw [cmdhandler_handle_update, if_pos hcond]
  · rw [cmdhandler_handle_update, if_pos hcond]

/-- C9 witness: the two handlers on `update 1 2 -5` from the example state. -/
theorem C9_witness :
    (handle_update_command exSt 0 1 2 (Cost.fin (-5))).1 = true ∧
    (cmdhandler_handle_update exSt 0 1 2 (Cost.fin (-5))).1 = false := by
  have h := @C9_negative_cost exSt 0 1 2 (-5) ⟨⟨10, 0, 0, 2⟩, 2001, Cost.fin 5⟩
    (by decide) (by decide) (by decide)
  exact ⟨h.1, h.2.2.1⟩

/-! ### Claim C10 -/

/-- C10 (confirmed): every decoded announcement entry maps a wire cost value
at or above `INFINITY = 999999` to infinity — a decoded cost is either
infinite or a finite value strictly below `999999` — so the codec cannot
convey a finite advertised cost of `999999` or more: such a cost encodes to
its own value on the wire but decodes to infinity at the receiver. -/
theorem C10_wire_cost_saturation :
    (∀ (data : List ℕ) (n off : ℕ) (res : List (ℕ × Cost)),
      parseEntries data n off = some res →
      ∀ p ∈ res, ∀ k : ℚ, p.2 = Cost.fin k → k < 999999) ∧
    (∀ w : ℕ, 999999 ≤ w → wireCost w = Cost.inf) ∧
    (∀ c : ℕ, 999999 ≤ c →
      ¬ wireCost ((costWord (Cost.fin ((c : ℕ) : ℚ))).toNat) = Cost.fin ((c : ℕ) : ℚ)) := by
  refine ⟨?_, ?_, ?_⟩
  · intro data n
    induction n with
    | zero =>
      intro off res h p hp k hk
      have h0 : (some [] : Option (List (ℕ × Cost))) = some res := h
      obtain rfl : res = [] := (Option.some_inj.mp h0).symm
      simp at hp
    | succ m ih =>
      intro off res h p hp k hk
      rw [parseEntries] at h
      by_cases hlen : data.length < off + 20
      · rw [if_pos hlen] at h
        exact Option.noConfusion h
      · rw [if_neg hlen] at h
        cases hrec : parseEntries data m (off + 20) with
        | none =>
          rw [hrec] at h
          exact Option.noConfusion h
        | some rest =>
          rw [hrec] at h
          simp only [Option.map_some', Option.some_inj] at h
          subst h
          rcases List.mem_cons.mp hp with rfl | hp'
          · unfold wireCost at hk
            by_cases hw : 999999 ≤ readBE32 data (off + 16)
            · rw [show ((readBE32 data (off + 12), if 999999 ≤ readBE32 data (off + 16)
                then Cost.inf else Cost.fin (readBE32 data (off + 16)))).2 =
                  (if 999999 ≤ readBE32 data (off + 16)
                    then Cost.inf else Cost.fin (readBE32 data (off + 16))) from rfl,
                if_pos hw] at hk
              exact absurd hk (by intro hx; exact Cost.noConfusion hx)
            · rw [show ((readBE32 data (off + 12), if 999999 ≤ readBE32 data (off + 16)
                then Cost.inf else Cost.fin (readBE32 data (off + 16)))).2 =
                  (if 999999 ≤ readBE32 data (off + 16)
                    then Cost.inf else Cost.fin (readBE32 data (off + 16))) from rfl,
                if_neg hw] at hk
              have hkk : ((readBE32 data (off + 16) : ℕ) : ℚ) = k := by
                injection hk
              have hwn : readBE32 data (off + 16) < 999999 := by omega
              calc k = ((readBE32 data (off + 16) : ℕ) : ℚ) := hkk.symm
                _ < 999999 := by exact_mod_cast hwn
          · exact ih (off + 20) rest hrec p hp' k hk
  · intro w hw
    unfold wireCost
    rw [if_pos hw]
  · intro c hc hk
    rw [show costWord (Cost.fin ((c : ℕ) : ℚ)) = ((c : ℕ) : ℚ).num.tdiv ((c : ℕ) : ℚ).den
        from rfl,
      Rat.num_natCast, Rat.den_natCast, Nat.cast_one, Int.tdiv_one,
      Int.toNat_natCast] at hk
    unfold wireCost at hk
    rw [if_pos hc] at hk
    exact Cost.noConfusion hk

/-- C10 witness: a concrete record decodes its finite cost 7 (bounded below
the sentinel), the sentinel value itself decodes to infinity, and the finite
cost 1000000 does not survive the codec. -/
theorem C10_witness :
    (7 : ℚ) < 999999 ∧ wireCost 999999 = Cost.inf ∧
    ¬ wireCost ((costWord (Cost.fin ((1000000 : ℕ) : ℚ))).toNat) =
      Cost.fin ((1000000 : ℕ) : ℚ) :=
  ⟨C10_wire_cost_saturation.1 exRec 1 0 [(2, Cost.fin 7)] (by with_unfolding_all decide)
      (2, Cost.fin 7) (by decide) 7 rfl,
    C10_wire_cost_saturation.2.1 999999 (by norm_num),
    C10_wire_cost_saturation.2.2 1000000 (by norm_num)⟩

end DV
